import Mathlib

set_option maxRecDepth 40000

/- Verification of the automated-PR pipeline in src/index.ts.

   The development is a shallow embedding: each function of the source is
   translated into a Lean definition over lists of characters / explicit
   data types, and the stated properties of the specification are settled
   as theorems about those definitions.  Model strings are `List Char`
   (JavaScript strings) wrapped into `String` where convenient. -/

namespace PRPipe

/-- JS String.prototype.indexOf on character lists: index of the first
occurrence of pat in s, or none (jsIndexOf wraps none to -1). -/
def firstIdx (pat : List Char) : List Char → Option Nat
  | [] => if pat = [] then some 0 else none
  | c :: t => if (c :: t).take pat.length = pat then some 0 else (firstIdx pat t).map (· + 1)

/-- JS indexOf result, -1 when absent. -/
def jsIndexOf (s pat : List Char) : Int :=
  match firstIdx pat s with
  | some n => (n : Int)
  | none => -1

/-- The fixed opening delimiter searched by extractXMLFromResponse. -/
def openTag : List Char := "<response>".data

/-- The fixed closing delimiter searched by extractXMLFromResponse. -/
def closeTag : List Char := "</response>".data

/-- Model of extractXMLFromResponse (src/index.ts lines 94-103).
JS semantics kept exactly: xmlEnd is indexOf plus the closing-tag length
computed BEFORE the -1 check, and String.prototype.slice clamps a negative
or reversed range to the empty string. -/
def extractXMLFromResponse (text : List Char) : Except Unit (List Char) :=
  let xmlStart : Int := jsIndexOf text openTag
  let xmlEnd : Int := jsIndexOf text closeTag + (closeTag.length : Int)
  if xmlStart = -1 ∨ xmlEnd = -1 then .error ()
  else .ok ((text.drop xmlStart.toNat).take (xmlEnd - xmlStart).toNat)

/-- pat occurs in s at index i. -/
def occursAt (pat s : List Char) (i : Nat) : Prop :=
  (s.drop i).take pat.length = pat

instance (pat s : List Char) (i : Nat) : Decidable (occursAt pat s i) := by
  unfold occursAt; infer_instance

theorem occursAt_cons_succ (pat : List Char) (c : Char) (t : List Char) (i : Nat) :
    occursAt pat (c :: t) (i + 1) ↔ occursAt pat t i := by
  simp [occursAt]

theorem occursAt_zero (pat s : List Char) :
    occursAt pat s 0 ↔ s.take pat.length = pat := by
  simp [occursAt]

/-- firstIdx returns none exactly when pat occurs nowhere. -/
theorem firstIdx_eq_none_iff (pat s : List Char) :
    firstIdx pat s = none ↔ ∀ i, ¬ occursAt pat s i := by
  induction s with
  | nil =>
    by_cases h : pat = [] <;>
      simp [firstIdx, h, occursAt]
  | cons c t ih =>
    by_cases h : (c :: t).take pat.length = pat
    · constructor
      · intro hc
        simp only [firstIdx, if_pos h] at hc
        cases hc
      · intro hall
        exact absurd ((occursAt_zero pat (c :: t)).2 h) (hall 0)
    · simp only [firstIdx, if_neg h]
      constructor
      · intro hmap i
        have hnone : firstIdx pat t = none := by
          cases hft : firstIdx pat t with
          | none => rfl
          | some k => rw [hft] at hmap; cases hmap
        have hall := ih.1 hnone
        match i with
        | 0 => rw [occursAt_zero]; exact h
        | i + 1 => rw [occursAt_cons_succ]; exact hall i
      · intro hall
        have hnone : firstIdx pat t = none := ih.2 (fun i => by
          have := hall (i + 1)
          rwa [occursAt_cons_succ] at this)
        rw [hnone]; rfl

/-- firstIdx returns some i exactly when pat occurs at i and at no smaller index. -/
theorem firstIdx_eq_some_iff (pat s : List Char) (i : Nat) :
    firstIdx pat s = some i ↔ occursAt pat s i ∧ ∀ j, j < i → ¬ occursAt pat s j := by
  induction s generalizing i with
  | nil =>
    by_cases h : pat = []
    · subst h
      constructor
      · intro hsome
        have hi : 0 = i := by simpa [firstIdx] using hsome
        subst hi
        exact ⟨by simp [occursAt], fun j hj => absurd hj (Nat.not_lt_zero j)⟩
      · rintro ⟨_, hmin⟩
        have hi : i = 0 := by
          by_contra hne
          exact hmin 0 (Nat.pos_of_ne_zero hne) (by simp [occursAt])
        subst hi
        simp [firstIdx]
    · constructor
      · intro hsome
        exfalso
        simp [firstIdx, h] at hsome
      · rintro ⟨hocc, _⟩
        exfalso
        apply h
        have h2 : ([] : List Char) = pat := by simpa [occursAt] using hocc
        exact h2.symm
  | cons c t ih =>
    by_cases h : (c :: t).take pat.length = pat
    · simp only [firstIdx, if_pos h, Option.some.injEq]
      constructor
      · rintro rfl
        exact ⟨(occursAt_zero pat (c :: t)).2 h, fun j hj => absurd hj (Nat.not_lt_zero j)⟩
      · rintro ⟨_, hmin⟩
        by_contra hne
        exact hmin 0 (Nat.pos_of_ne_zero fun he => hne he.symm)
          ((occursAt_zero pat (c :: t)).2 h)
    · simp only [firstIdx, if_neg h]
      constructor
      · intro hmap
        cases hft : firstIdx pat t with
        | none => rw [hft] at hmap; cases hmap
        | some i0 =>
          rw [hft] at hmap
          have hi : i0 + 1 = i := by simpa using hmap
          subst hi
          rcases (ih i0).1 hft with ⟨hocc, hmin⟩
          refine ⟨(occursAt_cons_succ pat c t i0).2 hocc, ?_⟩
          intro j hj
          match j with
          | 0 => rw [occursAt_zero]; exact h
          | j + 1 =>
            rw [occursAt_cons_succ]
            exact hmin j (by omega)
      · rintro ⟨hocc, hmin⟩
        match i with
        | 0 =>
          exfalso
          exact h ((occursAt_zero pat (c :: t)).1 hocc)
        | i + 1 =>
          have hft : firstIdx pat t = some i := (ih i).2
            ⟨(occursAt_cons_succ pat c t i).1 hocc, fun j hj => by
              have := hmin (j + 1) (by omega)
              rwa [occursAt_cons_succ] at this⟩
          rw [hft]; rfl

/-- When pat is nonempty and longer than the remaining window, no occurrence. -/
theorem not_occursAt_of_short (pat s : List Char) (i : Nat)
    (hpat : pat ≠ []) (h : s.length < i + pat.length) : ¬ occursAt pat s i := by
  intro hocc
  unfold occursAt at hocc
  have hlen := congrArg List.length hocc
  simp only [List.length_take, List.length_drop] at hlen
  have hpos : 0 < pat.length := List.length_pos.2 hpat
  omega

/-! Branch-name derivation (src/index.ts line 178):
    feature/ + title.toLowerCase().replace(/[^a-z0-9]+/g, '-') + '-' + Date.now() -/

/-- JS String.prototype.toLowerCase restricted to ASCII letters (the only
characters the slug keeps; every other character is collapsed to '-'
by the regex replacement, so the ASCII restriction does not change slug). -/
def jsToLower (c : Char) : Char :=
  if 'A' ≤ c ∧ c ≤ 'Z' then Char.ofNat (c.toNat + 32) else c

/-- Test of the regex character class [a-z0-9]. -/
def isSlugKeep (c : Char) : Bool :=
  ('a' ≤ c && c ≤ 'z') || ('0' ≤ c && c ≤ '9')

/-- replace(/[^a-z0-9]+/g, '-'): every maximal run of characters outside
[a-z0-9] becomes a single hyphen.  inRun records whether the previous
character was part of such a run. -/
def collapseRuns (inRun : Bool) : List Char → List Char
  | [] => []
  | c :: rest =>
    if isSlugKeep c then c :: collapseRuns false rest
    else if inRun then collapseRuns true rest
    else '-' :: collapseRuns true rest

/-- The slugification applied to the PR title on src/index.ts line 178. -/
def slug (s : String) : String :=
  ⟨collapseRuns false (s.data.map jsToLower)⟩

/-- JS number-to-string conversion for the integer Date.now() timestamp
(base-10 digits, most significant first). -/
def natToChars (n : Nat) : List Char :=
  if h : n < 10 then [Char.ofNat (48 + n)]
  else natToChars (n / 10) ++ [Char.ofNat (48 + n % 10)]
  decreasing_by exact Nat.div_lt_self (by omega) (by omega)

def natStr (n : Nat) : String := ⟨natToChars n⟩

/-- The branch name derived on src/index.ts line 178. -/
def branchName (title : String) (now : Nat) : String :=
  "feature/" ++ slug title ++ "-" ++ natStr now

theorem isSlugKeep_jsToLower_fix (c : Char) (h : isSlugKeep c = true) :
    jsToLower c = c := by
  unfold isSlugKeep at h
  simp only [Bool.or_eq_true, Bool.and_eq_true, decide_eq_true_eq] at h
  unfold jsToLower
  rw [if_neg]
  rintro ⟨h1, h2⟩
  rcases h with ⟨ha, _⟩ | ⟨_, hb⟩
  · exact absurd (le_trans ha h2) (by decide)
  · exact absurd (le_trans h1 hb) (by decide)

theorem jsToLower_hyphen : jsToLower '-' = '-' := by decide

/-- Every character emitted by collapseRuns is either a kept [a-z0-9]
character of the input or a hyphen. -/
theorem collapseRuns_chars (l : List Char) (b : Bool) (c : Char)
    (hc : c ∈ collapseRuns b l) : (isSlugKeep c = true ∧ c ∈ l) ∨ c = '-' := by
  induction l generalizing b with
  | nil => cases hc
  | cons x rest ih =>
    by_cases hx : isSlugKeep x = true
    · rw [collapseRuns, if_pos hx] at hc
      rcases List.mem_cons.1 hc with heq | hmem
      · subst heq
        exact Or.inl ⟨hx, List.mem_cons_self _ _⟩
      · rcases ih false hmem with ⟨hk, hm⟩ | hh
        · exact Or.inl ⟨hk, List.mem_cons_of_mem x hm⟩
        · exact Or.inr hh
    · rw [collapseRuns, if_neg hx] at hc
      cases b with
      | true =>
        rw [if_pos rfl] at hc
        rcases ih true hc with ⟨hk, hm⟩ | hh
        · exact Or.inl ⟨hk, List.mem_cons_of_mem x hm⟩
        · exact Or.inr hh
      | false =>
        rw [if_neg (by simp)] at hc
        rcases List.mem_cons.1 hc with rfl | hmem
        · exact Or.inr rfl
        · rcases ih true hmem with ⟨hk, hm⟩ | hh
          · exact Or.inl ⟨hk, List.mem_cons_of_mem x hm⟩
          · exact Or.inr hh

/-- collapseRuns is idempotent at every starting flag. -/
theorem collapseRuns_idem (l : List Char) (b : Bool) :
    collapseRuns b (collapseRuns b l) = collapseRuns b l := by
  induction l generalizing b with
  | nil => rfl
  | cons x rest ih =>
    by_cases hx : isSlugKeep x = true
    · rw [collapseRuns, if_pos hx, collapseRuns, if_pos hx, ih false]
    · cases b with
      | true =>
        rw [collapseRuns, if_neg hx, if_pos rfl, ih true]
      | false =>
        rw [collapseRuns, if_neg hx, if_neg (by simp),
          collapseRuns, if_neg (by decide : ¬ isSlugKeep '-' = true), if_neg (by simp)]
        have step : collapseRuns true (collapseRuns true rest) = collapseRuns true rest :=
          ih true
        rw [step]

theorem map_id_of_fix {f : Char → Char} :
    ∀ l : List Char, (∀ c ∈ l, f c = c) → l.map f = l
  | [], _ => rfl
  | c :: t, h => by
    rw [List.map_cons, h c (List.mem_cons_self c t),
      map_id_of_fix t (fun x hx => h x (List.mem_cons_of_mem c hx))]

/-- jsToLower fixes every character collapseRuns emits. -/
theorem map_jsToLower_collapseRuns (l : List Char) (b : Bool) :
    (collapseRuns b l).map jsToLower = collapseRuns b l := by
  apply map_id_of_fix
  intro c hc
  rcases collapseRuns_chars l b c hc with ⟨hk, _⟩ | rfl
  · exact isSlugKeep_jsToLower_fix c hk
  · exact jsToLower_hyphen

/-- C6 helper: the full slug rule is idempotent. -/
theorem slug_slug (t : String) : slug (slug t) = slug t := by
  unfold slug
  apply congrArg String.mk
  show collapseRuns false ((collapseRuns false (t.data.map jsToLower)).map jsToLower) =
    collapseRuns false (t.data.map jsToLower)
  rw [map_jsToLower_collapseRuns, collapseRuns_idem]

/-- Digits rendered by natToChars are decimal digit characters. -/
theorem natToChars_digits (n : Nat) :
    ∀ c ∈ natToChars n, '0' ≤ c ∧ c ≤ '9' := by
  induction n using Nat.strong_induction_on with
  | _ n ih =>
    intro c hc
    by_cases h : n < 10
    · rw [natToChars, dif_pos h] at hc
      rcases List.mem_singleton.1 hc with rfl
      interval_cases n <;> exact ⟨by decide, by decide⟩
    · rw [natToChars, dif_neg h] at hc
      rcases List.mem_append.1 hc with hm | hm
      · exact ih (n / 10) (Nat.div_lt_self (by omega) (by omega)) c hm
      · rcases List.mem_singleton.1 hm with rfl
        have h10 : n % 10 < 10 := Nat.mod_lt n (by omega)
        set d := n % 10 with hd
        interval_cases d <;> exact ⟨by decide, by decide⟩

/-- C1 direction that does work: a missing opening tag throws. -/
theorem extract_error_of_no_openTag (text : List Char)
    (h : ∀ i, ¬ occursAt openTag text i) :
    extractXMLFromResponse text = .error () := by
  unfold extractXMLFromResponse
  rw [show jsIndexOf text openTag = -1 from by
    unfold jsIndexOf
    rw [(firstIdx_eq_none_iff openTag text).2 h]]
  simp

/-- C1: behavior of extractXMLFromResponse when the closing tag is absent.
Claimed: it throws.  Actual: indexOf returns -1, adding the tag length gives
xmlEnd = 10, the check xmlEnd === -1 never fires, and the function returns
text.slice(xmlStart, 10) instead of throwing. -/
theorem c1_missing_close_not_detected :
    extractXMLFromResponse "<response>abc".data = .ok "<response>".data ∧
    extractXMLFromResponse "xy<response>abc".data = .ok "<respons".data := by
  constructor <;> rfl

/-- C6: the slugification rule of src/index.ts line 178 (lower-case, then
collapse every run of characters outside [a-z0-9] to one hyphen) is
idempotent: applying it twice equals applying it once, for every title. -/
theorem c6_slug_idempotent (title : String) : slug (slug title) = slug title :=
  slug_slug title

/-- C10: every derived branch name is feature/ followed by the slug, a
hyphen and the decimal timestamp; the slug part uses only lowercase ASCII
letters, digits and hyphens, and the timestamp part only decimal digits,
so nothing outside [a-z0-9-] (in particular no uppercase letter) follows
the feature/ prefix. -/
theorem c10_branch_charset (title : String) (now : Nat) :
    branchName title now = "feature/" ++ slug title ++ "-" ++ natStr now ∧
    (∀ c ∈ (slug title).data,
      ('a' ≤ c ∧ c ≤ 'z') ∨ ('0' ≤ c ∧ c ≤ '9') ∨ c = '-') ∧
    (∀ c ∈ (natStr now).data, '0' ≤ c ∧ c ≤ '9') := by
  refine ⟨rfl, ?_, ?_⟩
  · intro c hc
    have hc2 : c ∈ collapseRuns false (title.data.map jsToLower) := hc
    rcases collapseRuns_chars _ false c hc2 with ⟨hk, _⟩ | rfl
    · unfold isSlugKeep at hk
      simp only [Bool.or_eq_true, Bool.and_eq_true, decide_eq_true_eq] at hk
      rcases hk with h1 | h2
      · exact Or.inl h1
      · exact Or.inr (Or.inl h2)
    · exact Or.inr (Or.inr rfl)
  · intro c hc
    exact natToChars_digits now c hc

/-! Repository fetcher (src/index.ts lines 37-70, getRepoFiles).

    The host is modelled as a tree: a directory listing either fails
    (octokit.repos.getContent rejects) or yields entries; a file entry
    either yields its blob or fails (octokit.git.getBlob rejects).
    getRepoFiles(path) wraps ONE listing plus its loop in try/catch, so
    a blob failure aborts the rest of that directory loop but keeps the
    files already pushed; a recursive call has its own catch, so a
    failing subdirectory never aborts its parent loop. -/

structure RepoFile where
  path : String
  content : String
  sha : String
deriving DecidableEq

mutual
inductive FetchEntry where
  | fileOk (path sha content : String)
  | fileErr (path sha : String)
  | subdir (path : String) (listing : DirListing)
inductive DirListing where
  | err
  | ok (entries : List FetchEntry)
end

def FetchEntry.isFileErr : FetchEntry → Bool
  | .fileErr _ _ => true
  | _ => false

mutual
/-- One call of getRepoFiles(d) on listing result l: files returned and
console.error lines emitted, in order. -/
def fetchDir (d : String) : DirListing → List RepoFile × List String
  | .err => ([], ["Error reading " ++ d ++ ":"])
  | .ok entries => fetchList d entries

/-- The for-loop inside getRepoFiles(d): a fileErr throws to the catch of
THIS call, ending the loop with the files accumulated so far. -/
def fetchList (d : String) : List FetchEntry → List RepoFile × List String
  | [] => ([], [])
  | .fileOk p s c :: rest =>
    let r := fetchList d rest
    (⟨p, c, s⟩ :: r.1, r.2)
  | .fileErr _ _ :: _ => ([], ["Error reading " ++ d ++ ":"])
  | .subdir p l :: rest =>
    let r1 := fetchDir p l
    let r2 := fetchList d rest
    (r1.1 ++ r2.1, r1.2 ++ r2.2)
end

/- Does any listing or blob fetch anywhere in the subtree fail? -/
mutual
def DirListing.hasError : DirListing → Bool
  | .err => true
  | .ok entries => entriesHaveError entries
def entriesHaveError : List FetchEntry → Bool
  | [] => false
  | .fileOk _ _ _ :: rest => entriesHaveError rest
  | .fileErr _ _ :: _ => true
  | .subdir _ l :: rest => l.hasError || entriesHaveError rest
end

/-- C2 counterexample: a root listing where the second blob fetch fails.
The claim says a failing subtree contributes NO files (and under the
file-granular reading, that all other reachable files survive).  The code
instead keeps the files pushed before the error and drops the rest of the
directory: the result is neither [] nor [a.txt, c.txt] but exactly [a.txt]. -/
theorem c2_counterexample :
    let listing := DirListing.ok
      [.fileOk "a.txt" "sha-a" "A", .fileErr "b.txt" "sha-b", .fileOk "c.txt" "sha-c" "C"]
    listing.hasError = true ∧
    fetchDir "" listing = ([⟨"a.txt", "A", "sha-a"⟩], ["Error reading :"]) ∧
    (fetchDir "" listing).1 ≠ [] ∧
    (fetchDir "" listing).1 ≠ [⟨"a.txt", "A", "sha-a"⟩, ⟨"c.txt", "C", "sha-c"⟩] := by
  refine ⟨rfl, rfl, ?_, ?_⟩ <;> decide

/-- C2 amended: (1) a failing directory LISTING contributes no files and one
log line; (2) a failing blob fetch ends the enclosing directory loop,
keeping exactly the files accumulated before it plus one log line; (3) a
failing subdirectory never stops its parent: the siblings after it are
still fetched. -/
theorem c2_amended :
    (∀ d, fetchDir d .err = ([], ["Error reading " ++ d ++ ":"])) ∧
    (∀ d l1 p s l2, (∀ e ∈ l1, e.isFileErr = false) →
      fetchList d (l1 ++ .fileErr p s :: l2) =
        ((fetchList d l1).1, (fetchList d l1).2 ++ ["Error reading " ++ d ++ ":"])) ∧
    (∀ d l1 p l2, (∀ e ∈ l1, e.isFileErr = false) →
      fetchList d (l1 ++ .subdir p .err :: l2) =
        ((fetchList d l1).1 ++ (fetchList d l2).1,
         (fetchList d l1).2 ++ ("Error reading " ++ p ++ ":") :: (fetchList d l2).2)) := by
  refine ⟨fun d => rfl, ?_, ?_⟩
  · intro d l1 p s l2 hok
    induction l1 with
    | nil => simp [fetchList]
    | cons e rest ih =>
      have hrest : ∀ x ∈ rest, x.isFileErr = false :=
        fun x hx => hok x (List.mem_cons_of_mem e hx)
      cases e with
      | fileOk ep es ec =>
        simp only [List.cons_append, fetchList, List.append_eq, ih hrest]
      | fileErr ep es =>
        exact absurd (hok _ (List.mem_cons_self _ _)) (by simp [FetchEntry.isFileErr])
      | subdir ep el =>
        simp only [List.cons_append, fetchList, List.append_eq, ih hrest, List.append_assoc]
  · intro d l1 p l2 hok
    induction l1 with
    | nil => simp [fetchList, fetchDir]
    | cons e rest ih =>
      have hrest : ∀ x ∈ rest, x.isFileErr = false :=
        fun x hx => hok x (List.mem_cons_of_mem e hx)
      cases e with
      | fileOk ep es ec =>
        simp only [List.cons_append, fetchList, List.append_eq, ih hrest]
      | fileErr ep es =>
        exact absurd (hok _ (List.mem_cons_self _ _)) (by simp [FetchEntry.isFileErr])
      | subdir ep el =>
        simp only [List.cons_append, fetchList, List.append_eq, ih hrest, List.append_assoc]

/-- Witness for c2_amended at concrete inputs. -/
theorem c2_witness :
    fetchList "" ([.fileOk "a.txt" "sa" "A"] ++ .fileErr "b.txt" "sb" :: [.fileOk "c.txt" "sc" "C"]) =
      ((fetchList "" [.fileOk "a.txt" "sa" "A"]).1,
       (fetchList "" [.fileOk "a.txt" "sa" "A"]).2 ++ ["Error reading :"]) ∧
    fetchList "d" ([] ++ FetchEntry.subdir "sub" .err :: [.fileOk "c.txt" "sc" "C"]) =
      ((fetchList "d" []).1 ++ (fetchList "d" [.fileOk "c.txt" "sc" "C"]).1,
       (fetchList "d" []).2 ++ ("Error reading sub:") :: (fetchList "d" [.fileOk "c.txt" "sc" "C"]).2) :=
  ⟨c2_amended.2.1 "" [.fileOk "a.txt" "sa" "A"] "b.txt" "sb" [.fileOk "c.txt" "sc" "C"]
      (by decide),
   c2_amended.2.2 "d" [] "sub" [.fileOk "c.txt" "sc" "C"] (by decide)⟩

/-! XML parsing layer.

    src/index.ts feeds the extracted slice to xml2js parseStringPromise
    (default options: explicitArray true) and then navigates the resulting
    plain JS value.  JsValue models that JS value; xmlToJs models the
    xml2js conversion of a well-formed document: an element with no child
    elements becomes the concatenation of its text (so an empty element is
    the empty string), an element with child elements becomes an object
    mapping each child tag name to the array of the values of the children
    carrying that name, in document order (whitespace-only interleaved text
    is dropped by xml2js and is dropped here).  pElem/pNodes model the
    parser itself on the attribute-free, entity-free fragment of XML that
    the wire schema of the spec (section 6) uses; any input outside that
    fragment is rejected. -/

inductive Xml where
  | elem (name : String) (children : List Xml)
  | text (s : String)

inductive JsValue where
  | str (s : String)
  | arr (vs : List JsValue)
  | obj (fields : List (String × JsValue))

/-- Concatenated character data of a child list. -/
def textConcat : List Xml → String
  | [] => ""
  | .text s :: rest => s ++ textConcat rest
  | .elem _ _ :: rest => textConcat rest

/-- Keys in first-occurrence order, without duplicates. -/
def dedupKeys : List String → List String
  | [] => []
  | x :: xs => x :: (dedupKeys xs).filter (fun y => y ≠ x)

/-- Group an ordered (tagName, value) list into the xml2js object shape:
one field per distinct tag name holding the array of its values. -/
def groupPairs (ps : List (String × JsValue)) : List (String × JsValue) :=
  (dedupKeys (ps.map Prod.fst)).map
    (fun n => (n, .arr ((ps.filter (fun q => q.1 == n)).map Prod.snd)))

mutual
/-- xml2js value of one element. -/
def xmlToJs : Xml → JsValue
  | .text s => .str s
  | .elem _ cs =>
    if (childVals cs).isEmpty then .str (textConcat cs)
    else .obj (groupPairs (childVals cs))
/-- (tagName, value) pairs of the element children, in document order. -/
def childVals : List Xml → List (String × JsValue)
  | [] => []
  | .elem n cs :: rest => (n, xmlToJs (.elem n cs)) :: childVals rest
  | .text _ :: rest => childVals rest
end

/-- The value parseStringPromise resolves with: { rootName: rootValue }. -/
def rootJs (name : String) (cs : List Xml) : JsValue :=
  .obj [(name, xmlToJs (.elem name cs))]

/-- JS property access on a defined value; undefined is none.  A named
property read on a string or array yields undefined (no property named
response/files/file/path/content/pullRequest/title/body exists on them). -/
def jsGet : JsValue → String → Option JsValue
  | .obj fs, k => fs.lookup k
  | _, _ => none

/-- JS index access on a defined value: v[i]. -/
def jsIdx : JsValue → Nat → Option JsValue
  | .arr vs, i => vs.get? i
  | .str s, i => (s.data.get? i).map (fun c => .str ⟨[c]⟩)
  | .obj _, _ => none

/-- value.k where value may be undefined: reading a property of undefined
throws (models the TypeError inside parseModelResponse). -/
def chainGet (v : Option JsValue) (k : String) : Except Unit (Option JsValue) :=
  match v with
  | none => .error ()
  | some x => .ok (jsGet x k)

/-- value[i] where value may be undefined. -/
def chainIdx (v : Option JsValue) (i : Nat) : Except Unit (Option JsValue) :=
  match v with
  | none => .error ()
  | some x => .ok (jsIdx x i)

structure FileContent where
  path : Option JsValue
  content : Option JsValue

structure PRMetadata where
  title : Option JsValue
  body : Option JsValue

structure GeneratedContent where
  files : List FileContent
  pr : PRMetadata

/-- The receiver of .map must be a defined array value or the call throws. -/
def asArr : Option JsValue → Except Unit (List JsValue)
  | some (.arr vs) => .ok vs
  | _ => .error ()

/-- Model of parseModelResponse (src/index.ts lines 115-127): navigate
parsed.response.files[0].file.map(file => ({path: file.path[0],
content: file.content[0]})) and parsed.response.pullRequest[0].title[0] /
.body[0]; each property step on undefined throws, and .map throws unless
the receiver is an array. -/
def parseModelResponse (parsed : JsValue) : Except Unit GeneratedContent := do
  let response := jsGet parsed "response"
  let files1 ← chainGet response "files"
  let files0 ← chainIdx files1 0
  let fileArr ← chainGet files0 "file"
  let fl ← asArr fileArr
  let fs ← fl.mapM (fun fv => do
    let p ← chainIdx (jsGet fv "path") 0
    let c ← chainIdx (jsGet fv "content") 0
    Except.ok (⟨p, c⟩ : FileContent))
  let pr1 ← chainGet response "pullRequest"
  let pr0 ← chainIdx pr1 0
  let t1 ← chainGet pr0 "title"
  let t ← chainIdx t1 0
  let b1 ← chainGet pr0 "body"
  let b ← chainIdx b1 0
  Except.ok ⟨fs, ⟨t, b⟩⟩

/-- Characters allowed in a tag name by the modelled fragment. -/
def isNameChar (c : Char) : Bool :=
  c ≠ '<' && c ≠ '>' && c ≠ '/'

/-- A character that extends a text node. -/
def isTextChar (c : Char) : Bool :=
  c ≠ '<'

/-- Continue with the payload of a successful step, fail otherwise. -/
def withOk {α β : Type} (e : Except Unit α) (f : α → Except Unit β) : Except Unit β :=
  match e with
  | .error _ => .error ()
  | .ok a => f a

mutual
/-- Parse one element: < name > content </ name >. -/
def pElem : Nat → List Char → Except Unit (Xml × List Char)
  | 0, _ => .error ()
  | fuel + 1, cs =>
    if cs.head? = some '<' then
      let name := cs.tail.takeWhile isNameChar
      let r1 := cs.tail.dropWhile isNameChar
      if name = [] then .error ()
      else if r1.head? = some '>' then
        withOk (pNodes fuel r1.tail) (fun kr =>
          if kr.2.take (name.length + 3) = '<' :: '/' :: (name ++ ['>']) then
            .ok (.elem ⟨name⟩ kr.1, kr.2.drop (name.length + 3))
          else .error ())
      else .error ()
    else .error ()

/-- Parse a list of content nodes up to a closing tag or end of input. -/
def pNodes : Nat → List Char → Except Unit (List Xml × List Char)
  | 0, _ => .error ()
  | fuel + 1, [] => .ok ([], [])
  | fuel + 1, c :: rest =>
    if c = '<' then
      if rest.head? = some '/' then .ok ([], c :: rest)
      else
        withOk (pElem fuel (c :: rest)) (fun xr =>
          withOk (pNodes fuel xr.2) (fun yr => .ok (xr.1 :: yr.1, yr.2)))
    else
      withOk (pNodes fuel ((c :: rest).dropWhile isTextChar)) (fun yr =>
        .ok (.text ⟨(c :: rest).takeWhile isTextChar⟩ :: yr.1, yr.2))
end

/-- Model of parseStringPromise on the schema fragment: parse exactly one
root element covering the whole input and convert it. -/
def parseSP (cs : List Char) : Except Unit JsValue :=
  match pElem (cs.length + 1) cs with
  | .ok (.elem n kids, []) => .ok (rootJs n kids)
  | _ => .error ()

/-- The whole parse stage of createAutomatedPR (lines 169-170):
extractXMLFromResponse then parseStringPromise then parseModelResponse. -/
def runParse (raw : List Char) : Except Unit GeneratedContent := do
  let xml ← extractXMLFromResponse raw
  let parsed ← parseSP xml
  parseModelResponse parsed

/-! PR publisher (src/index.ts lines 172-218).  Host write calls in issue
    order; read-only calls (repos.get, git.getRef) carry no state and are
    not recorded.  The hosted API is assumed to accept every write, as the
    claims only concern which writes the pipeline issues. -/

inductive WriteCall where
  | createRef (ref sha : String)
  | putFile (path content : Option JsValue) (message branch : String)
  | openPR (title body : Option JsValue) (head base : String)
  | comment (body : String)

mutual
/-- JS string coercion of a value (template literal). -/
def jsStrV : JsValue → String
  | .str s => s
  | .arr vs => commaJoin vs
  | .obj _ => "[object Object]"
def commaJoin : List JsValue → String
  | [] => ""
  | [v] => jsStrV v
  | v :: rest => jsStrV v ++ "," ++ commaJoin rest
end

/-- JS string coercion where the value may be undefined. -/
def jsStr : Option JsValue → String
  | none => "undefined"
  | some v => jsStrV v

/-- JS Array.prototype.join. -/
def jsJoin (sep : String) : List String → String
  | [] => ""
  | x :: rest => rest.foldl (fun acc y => acc ++ sep ++ y) x

def apos : String := ⟨[Char.ofNat 39]⟩

/-- The comment posted on the created PR (src/index.ts line 217). -/
def commentBody (reasoning : String) (files : List FileContent) : String :=
  "## AI Model" ++ apos ++ "s Reasoning Process\n\n" ++ reasoning ++
    "\n\n## Modified Files\n" ++ jsJoin "\n" (files.map (fun f => "- " ++ jsStr f.path))

/-- Publishing phase after a successful parse: derive the branch name
(pr.title.toLowerCase() throws unless the title is a string), create the
branch ref, write each file in document order, open the PR, comment. -/
def runPublish (gc : GeneratedContent) (defaultBranch headSha : String)
    (now : Nat) (reasoning : String) : List WriteCall × Except Unit Unit :=
  match gc.pr.title with
  | some (.str t) =>
    (WriteCall.createRef ("refs/heads/" ++ branchName t now) headSha ::
      gc.files.map (fun f =>
        WriteCall.putFile f.path f.content ("Update " ++ jsStr f.path) (branchName t now)) ++
      [WriteCall.openPR gc.pr.title gc.pr.body (branchName t now) defaultBranch,
       WriteCall.comment (commentBody reasoning gc.files)],
     .ok ())
  | _ => ([], .error ())

/-- createAutomatedPR after the model call: parse stage then publish stage;
a parse failure reaches the top-level catch before any write call. -/
def runPipeline (raw : List Char) (defaultBranch headSha : String)
    (now : Nat) (reasoning : String) : List WriteCall × Except Unit Unit :=
  match runParse raw with
  | .error _ => ([], .error ())
  | .ok gc => runPublish gc defaultBranch headSha now reasoning

theorem openTag_length : openTag.length = 10 := rfl

theorem closeTag_length : closeTag.length = 11 := rfl

/-- C5: a model response without the opening response tag anywhere fails at
extraction (before parsing) and the pipeline issues zero host write calls. -/
theorem c5_no_response_tag (raw : List Char) (db sha : String) (now : Nat)
    (reasoning : String)
    (h : ∀ i, i < raw.length → ¬ occursAt openTag raw i) :
    runPipeline raw db sha now reasoning = ([], .error ()) := by
  have hall : ∀ i, ¬ occursAt openTag raw i := by
    intro i
    by_cases hi : i < raw.length
    · exact h i hi
    · refine not_occursAt_of_short openTag raw i (by decide) ?_
      have h10 : openTag.length = 10 := openTag_length
      omega
  have hex : extractXMLFromResponse raw = .error () :=
    extract_error_of_no_openTag raw hall
  have hrp : runParse raw = .error () := by
    unfold runParse
    rw [hex]
    rfl
  unfold runPipeline
  rw [hrp]

/-- Witness for c5_no_response_tag on a concrete tagless response. -/
theorem c5_witness :
    runPipeline "Sorry, I cannot help with that.".data "main" "abc123" 1700000000000 "r" =
      ([], .error ()) :=
  c5_no_response_tag "Sorry, I cannot help with that.".data "main" "abc123"
    1700000000000 "r" (by decide)

/-! C7: duplicate paths in the edit list. -/

/-- The (path, content) pairs of the create-or-update file writes among a
write-call list, in issue order; the path key is its JS string form as it
is sent to the host. -/
def fileWritesOf : List WriteCall → List (String × Option JsValue)
  | [] => []
  | .putFile p c _ _ :: rest => (jsStr p, c) :: fileWritesOf rest
  | .createRef _ _ :: rest => fileWritesOf rest
  | .openPR _ _ _ _ :: rest => fileWritesOf rest
  | .comment _ :: rest => fileWritesOf rest

/-- Final content at key p after applying an assoc list of writes in order. -/
def lastAssoc (ps : List (String × Option JsValue)) (p : String) : Option (Option JsValue) :=
  ps.foldl (fun acc q => if q.1 = p then some q.2 else acc) none

/-- State of path p on the new branch after all file writes ran in order. -/
def lastWrite (ws : List WriteCall) (p : String) : Option (Option JsValue) :=
  lastAssoc (fileWritesOf ws) p

theorem lastAssoc_skip (ps : List (String × Option JsValue)) (p : String)
    (acc : Option (Option JsValue)) (h : ∀ q ∈ ps, q.1 ≠ p) :
    ps.foldl (fun acc q => if q.1 = p then some q.2 else acc) acc = acc := by
  induction ps generalizing acc with
  | nil => rfl
  | cons q rest ih =>
    rw [List.foldl_cons, if_neg (h q (List.mem_cons_self _ _))]
    exact ih acc (fun x hx => h x (List.mem_cons_of_mem q hx))

theorem lastAssoc_append_last (A B : List (String × Option JsValue)) (p : String)
    (c : Option JsValue) (hB : ∀ q ∈ B, q.1 ≠ p) :
    lastAssoc (A ++ (p, c) :: B) p = some c := by
  unfold lastAssoc
  rw [List.foldl_append, List.foldl_cons, if_pos rfl]
  exact lastAssoc_skip B p (some c) hB

theorem fileWritesOf_map_putFile (l : List FileContent) (nb : String) :
    fileWritesOf (l.map fun f =>
      WriteCall.putFile f.path f.content ("Update " ++ jsStr f.path) nb) =
      l.map (fun f => (jsStr f.path, f.content)) := by
  induction l with
  | nil => rfl
  | cons f rest ih => simp only [List.map_cons, fileWritesOf, ih]

theorem fileWritesOf_append (a b : List WriteCall) :
    fileWritesOf (a ++ b) = fileWritesOf a ++ fileWritesOf b := by
  induction a with
  | nil => rfl
  | cons w rest ih =>
    cases w <;> simp only [List.cons_append, fileWritesOf, List.append_eq, ih]

/-- C7: two edits with the same path yield two sequential create-or-update
writes to that path (one write per edit, in document order, never merged
and never rejected), and when no later edit touches the path, the final
state of the path after the sequential writes is exactly the second
edit's content: last write wins. -/
theorem c7_duplicate_paths (gc : GeneratedContent) (db sha reasoning t : String)
    (now : Nat) (ht : gc.pr.title = some (.str t))
    (pre mid post : List FileContent) (e1 e2 : FileContent)
    (hsplit : gc.files = pre ++ e1 :: mid ++ e2 :: post)
    (hpath : jsStr e1.path = jsStr e2.path) :
    fileWritesOf (runPublish gc db sha now reasoning).1 =
      gc.files.map (fun f => (jsStr f.path, f.content)) ∧
    (runPublish gc db sha now reasoning).2 = Except.ok () ∧
    ((∀ f ∈ post, jsStr f.path ≠ jsStr e1.path) →
      lastWrite (runPublish gc db sha now reasoning).1 (jsStr e1.path) = some e2.content) := by
  have hw : (runPublish gc db sha now reasoning).1 =
      WriteCall.createRef ("refs/heads/" ++ branchName t now) sha ::
        gc.files.map (fun f =>
          WriteCall.putFile f.path f.content ("Update " ++ jsStr f.path) (branchName t now)) ++
        [WriteCall.openPR gc.pr.title gc.pr.body (branchName t now) db,
         WriteCall.comment (commentBody reasoning gc.files)] := by
    unfold runPublish
    rw [ht]
  have hfw : fileWritesOf (runPublish gc db sha now reasoning).1 =
      gc.files.map (fun f => (jsStr f.path, f.content)) := by
    rw [hw]
    show fileWritesOf (WriteCall.createRef _ _ ::
      (gc.files.map _ ++ [WriteCall.openPR _ _ _ _, WriteCall.comment _])) = _
    rw [fileWritesOf, fileWritesOf_append, fileWritesOf_map_putFile]
    show gc.files.map _ ++ fileWritesOf [_, _] = _
    rw [show fileWritesOf [WriteCall.openPR gc.pr.title gc.pr.body (branchName t now) db,
      WriteCall.comment (commentBody reasoning gc.files)] = [] from rfl, List.append_nil]
  refine ⟨hfw, by unfold runPublish; rw [ht], ?_⟩
  intro hpost
  unfold lastWrite
  rw [hfw, hsplit]
  rw [show pre ++ e1 :: mid ++ e2 :: post = (pre ++ e1 :: mid) ++ e2 :: post by simp]
  rw [List.map_append, List.map_cons]
  rw [← hpath]
  refine lastAssoc_append_last _ _ _ _ ?_
  intro q hq
  rcases List.mem_map.1 hq with ⟨f, hf, rfl⟩
  exact hpost f hf

/-- Witness for c7_duplicate_paths on a concrete duplicate edit list. -/
theorem c7_witness :
    fileWritesOf (runPublish
        ⟨[⟨some (.str "a.ts"), some (.str "one")⟩, ⟨some (.str "a.ts"), some (.str "two")⟩],
          ⟨some (.str "T"), some (.str "B")⟩⟩ "main" "s" 7 "r").1 =
      [("a.ts", some (.str "one")), ("a.ts", some (.str "two"))] ∧
    (runPublish
        ⟨[⟨some (.str "a.ts"), some (.str "one")⟩, ⟨some (.str "a.ts"), some (.str "two")⟩],
          ⟨some (.str "T"), some (.str "B")⟩⟩ "main" "s" 7 "r").2 = Except.ok () ∧
    lastWrite (runPublish
        ⟨[⟨some (.str "a.ts"), some (.str "one")⟩, ⟨some (.str "a.ts"), some (.str "two")⟩],
          ⟨some (.str "T"), some (.str "B")⟩⟩ "main" "s" 7 "r").1 "a.ts" =
      some (some (.str "two")) := by
  have h := c7_duplicate_paths
    ⟨[⟨some (.str "a.ts"), some (.str "one")⟩, ⟨some (.str "a.ts"), some (.str "two")⟩],
      ⟨some (.str "T"), some (.str "B")⟩⟩ "main" "s" "r" "T" 7 rfl
    [] [] [] ⟨some (.str "a.ts"), some (.str "one")⟩ ⟨some (.str "a.ts"), some (.str "two")⟩
    rfl rfl
  exact ⟨h.1, h.2.1, h.2.2 (by intro f hf; cases hf)⟩

/-- The end-to-end example response fixed by the spec (section 8). -/
def specExample : String :=
  "<response><pullRequest><title>Add Logging</title><body>Adds a logger.</body></pullRequest><files><file><path>src/log.ts</path><content>export const log = console.log;</content></file></files></response>"

/-- C8: on the fixed example response the pipeline derives the branch
feature/add-logging-(timestamp digits), performs exactly one file write,
to src/log.ts, and opens exactly one pull request titled Add Logging
(then posts the one comment), whatever the timestamp, head sha, default
branch and reasoning are. -/
theorem c8_end_to_end (db sha reasoning : String) (now : Nat) :
    runPipeline specExample.data db sha now reasoning =
      ([WriteCall.createRef ("refs/heads/" ++ ("feature/add-logging-" ++ natStr now)) sha,
        WriteCall.putFile (some (.str "src/log.ts"))
          (some (.str "export const log = console.log;"))
          "Update src/log.ts" ("feature/add-logging-" ++ natStr now),
        WriteCall.openPR (some (.str "Add Logging")) (some (.str "Adds a logger."))
          ("feature/add-logging-" ++ natStr now) db,
        WriteCall.comment (commentBody reasoning
          [⟨some (.str "src/log.ts"), some (.str "export const log = console.log;")⟩])],
       Except.ok ()) ∧
    branchName "Add Logging" now = "feature/add-logging-" ++ natStr now ∧
    (∀ c ∈ (natStr now).data, '0' ≤ c ∧ c ≤ '9') := by
  refine ⟨?_, ?_, fun c hc => natToChars_digits now c hc⟩
  · rfl
  · rfl

/-! C9: the messages sent to the language model (src/index.ts 134, 139-167). -/

inductive Role where
  | system
  | user
deriving DecidableEq

/-- The fixed instruction text of the system message (src/index.ts lines
144-159), up to and including the final newline before the interpolated
codebase context. -/
def promptHeader : String :=
  "You are a TypeScript expert. Analyze the following codebase and generate changes based on user requirements.\nRespond ONLY with valid XML in this format:\n<response>\n  <pullRequest>\n    <title>Title of the pull request</title>\n    <body>Detailed description of the changes</body>\n  </pullRequest>\n  <files>\n    <file>\n      <path>path/to/file</path>\n      <content>File content</content>\n    </file>\n  </files>\n</response>\n\nCurrent codebase:\n"

/-- repoFiles.map(f => path:\ncontent).join('\n\n') (src/index.ts line 134). -/
def codebaseContext (files : List RepoFile) : String :=
  jsJoin "\n\n" (files.map (fun f => f.path ++ ":\n" ++ f.content))

/-- The two chat messages passed to generateText (src/index.ts 141-166). -/
def chatMessages (files : List RepoFile) (req : String) : List (Role × String) :=
  [(Role.system, promptHeader ++ codebaseContext files), (Role.user, req)]

/-- Modelled from the spec (section 4.3 wording): every file rendered as a
block of the form path, colon, newline, content, with consecutive blocks
separated by one blank line, appended after the fixed instructions. -/
def spec_renderBlocks : List RepoFile → String
  | [] => ""
  | [f] => f.path ++ ":\n" ++ f.content
  | f :: rest => f.path ++ ":\n" ++ f.content ++ "\n\n" ++ spec_renderBlocks rest

/-- Modelled from the spec (section 4.3 wording): the system message. -/
def spec_systemMessage (files : List RepoFile) : String :=
  promptHeader ++ spec_renderBlocks files

theorem string_append_assoc (a b c : String) : a ++ b ++ c = a ++ (b ++ c) := by
  apply congrArg String.mk
  show (a ++ b).data ++ c.data = _
  rw [String.data_append, List.append_assoc]

theorem jsJoin_foldl_extract (sep : String) (l : List String) (a b : String) :
    l.foldl (fun acc y => acc ++ sep ++ y) (a ++ b) =
      a ++ l.foldl (fun acc y => acc ++ sep ++ y) b := by
  induction l generalizing b with
  | nil => rfl
  | cons y ys ih =>
    rw [List.foldl_cons, List.foldl_cons]
    rw [string_append_assoc (a ++ b) sep y, string_append_assoc a b (sep ++ y),
      ← string_append_assoc b sep y]
    exact ih (b ++ sep ++ y)

theorem jsJoin_cons_cons (sep x y : String) (rest : List String) :
    jsJoin sep (x :: y :: rest) = x ++ sep ++ jsJoin sep (y :: rest) := by
  show (y :: rest).foldl (fun acc z => acc ++ sep ++ z) x =
    x ++ sep ++ rest.foldl (fun acc z => acc ++ sep ++ z) y
  rw [List.foldl_cons]
  exact jsJoin_foldl_extract sep rest (x ++ sep) y

theorem codebaseContext_eq_spec (files : List RepoFile) :
    codebaseContext files = spec_renderBlocks files := by
  induction files with
  | nil => rfl
  | cons f rest ih =>
    cases rest with
    | nil => rfl
    | cons g rs =>
      have ih2 : jsJoin "\n\n" ((g.path ++ ":\n" ++ g.content) ::
          rs.map (fun f => f.path ++ ":\n" ++ f.content)) = spec_renderBlocks (g :: rs) := ih
      show jsJoin "\n\n" ((f.path ++ ":\n" ++ f.content) :: (g.path ++ ":\n" ++ g.content) ::
        rs.map (fun f => f.path ++ ":\n" ++ f.content)) = spec_renderBlocks (f :: g :: rs)
      rw [jsJoin_cons_cons, ih2]
      rfl

/-- C9: the system message is exactly the fixed instruction text followed
by every fetched file rendered as a path:\ncontent block with consecutive
blocks separated by a blank line, and the user message is exactly the
change-request string. -/
theorem c9_messages (files : List RepoFile) (req : String) :
    chatMessages files req =
      [(Role.system, spec_systemMessage files), (Role.user, req)] := by
  unfold chatMessages spec_systemMessage
  rw [codebaseContext_eq_spec]

/-- C3 counterexample: a response whose files element holds K = 0 file
elements.  The claim says it parses to exactly 0 Generated Edits; the code
instead fails: xml2js turns the childless files element into an empty
string, .file on it is undefined, and .map throws. -/
theorem c3_counterexample :
    runParse "<response><pullRequest><title>t</title><body>b</body></pullRequest><files></files></response>".data
      = Except.error () := by rfl

/-- C4 counterexample: an extracted XML string that deviates from the
section 6 schema by extra structure (an extra response child and an extra
file child) still parses successfully; the extra nodes are ignored, so
parsing does NOT succeed only on exact schema matches. -/
theorem c4_counterexample :
    (parseSP "<response><pullRequest><title>t</title><body>b</body></pullRequest><files><file><path>p</path><content>c</content><mode>0644</mode></file></files><extra>x</extra></response>".data
        >>= parseModelResponse) =
      Except.ok ⟨[⟨some (.str "p"), some (.str "c")⟩], ⟨some (.str "t"), some (.str "b")⟩⟩ := by
  rfl

/-! C4: what parseModelResponse actually requires of a parsed document. -/

def isNamedElem (n : String) : Xml → Bool
  | .elem m _ => m == n
  | .text _ => false

/-- The element children of cs carrying tag name n, in document order. -/
def childrenNamed (cs : List Xml) (n : String) : List Xml :=
  cs.filter (isNamedElem n)

/-- x is an element having at least one child element named n. -/
def hasNamedChild (x : Xml) (n : String) : Bool :=
  match x with
  | .elem _ cs => !(childrenNamed cs n).isEmpty
  | .text _ => false

/-- The exact requirement parseModelResponse places on a parsed document:
root named response; at least one files child whose FIRST occurrence has at
least one file child, each file child having a path child and a content
child; at least one pullRequest child whose FIRST occurrence has a title
child and a body child.  Nothing else is constrained: extra elements,
extra children and trailing duplicates are ignored. -/
def respSchemaOk (name : String) (cs : List Xml) : Bool :=
  (name == "response") &&
  (match (childrenNamed cs "files").head? with
   | some (.elem _ fcs) =>
     !(childrenNamed fcs "file").isEmpty &&
     (childrenNamed fcs "file").all
       (fun fc => hasNamedChild fc "path" && hasNamedChild fc "content")
   | _ => false) &&
  (match (childrenNamed cs "pullRequest").head? with
   | some p0 => hasNamedChild p0 "title" && hasNamedChild p0 "body"
   | none => false)

theorem childVals_filter_snd (cs : List Xml) (k : String) :
    ((childVals cs).filter (fun q => q.1 == k)).map Prod.snd =
      (childrenNamed cs k).map xmlToJs := by
  induction cs with
  | nil => rfl
  | cons x rest ih =>
    cases x with
    | text s =>
      show ((childVals rest).filter _).map Prod.snd = ((Xml.text s :: rest).filter _).map _
      rw [List.filter_cons_of_neg (by simp [isNamedElem])]
      exact ih
    | elem m ccs =>
      show (((m, xmlToJs (.elem m ccs)) :: childVals rest).filter
          (fun q => q.1 == k)).map Prod.snd =
        ((Xml.elem m ccs :: rest).filter (isNamedElem k)).map xmlToJs
      by_cases hm : (m == k) = true
      · rw [List.filter_cons_of_pos (by simpa using hm),
          List.filter_cons_of_pos (by simpa [isNamedElem] using hm),
          List.map_cons, List.map_cons, ih]
        rfl
      · rw [List.filter_cons_of_neg (by simpa using hm),
          List.filter_cons_of_neg (by simpa [isNamedElem] using hm)]
        exact ih

theorem childVals_filter_nil_iff (cs : List Xml) (k : String) :
    ((childVals cs).filter (fun q => q.1 == k)) = [] ↔ childrenNamed cs k = [] := by
  constructor
  · intro h
    have h2 := childVals_filter_snd cs k
    rw [h] at h2
    rcases List.map_eq_nil_iff.1 h2.symm with h3
    exact h3
  · intro h
    have h2 := childVals_filter_snd cs k
    rw [h] at h2
    exact List.map_eq_nil_iff.1 h2

theorem lookup_map_keys (ns : List String) (f : String → JsValue) (k : String) :
    List.lookup k (ns.map fun n => (n, f n)) = if k ∈ ns then some (f k) else none := by
  induction ns with
  | nil => rfl
  | cons n rest ih =>
    rw [List.map_cons, List.lookup_cons]
    by_cases h : k = n
    · subst h
      simp
    · have hb : (k == n) = false := beq_eq_false_iff_ne.2 h
      rw [hb]
      rw [ih]
      by_cases hmem : k ∈ rest
      · rw [if_pos hmem, if_pos (List.mem_cons_of_mem n hmem)]
      · rw [if_neg hmem, if_neg (by
          intro hc
          rcases List.mem_cons.1 hc with hc1 | hc2
          · exact h hc1
          · exact hmem hc2)]

theorem mem_dedupKeys (l : List String) (k : String) : k ∈ dedupKeys l ↔ k ∈ l := by
  induction l with
  | nil => simp [dedupKeys]
  | cons x xs ih =>
    simp only [dedupKeys, List.mem_cons, List.mem_filter, decide_eq_true_eq]
    by_cases h : k = x
    · simp [h]
    · simp [h, ih]

theorem lookup_groupPairs_nil (ps : List (String × JsValue)) (k : String)
    (h : ps.filter (fun q => q.1 == k) = []) :
    List.lookup k (groupPairs ps) = none := by
  unfold groupPairs
  rw [lookup_map_keys]
  have hk : k ∉ ps.map Prod.fst := by
    intro hm
    rcases List.mem_map.1 hm with ⟨q, hq, hq1⟩
    have hnot := List.filter_eq_nil_iff.1 h q hq
    exact hnot (by rw [hq1]; exact beq_self_eq_true k)
  rw [if_neg (fun hmem => hk ((mem_dedupKeys _ k).1 hmem))]

theorem lookup_groupPairs_ne (ps : List (String × JsValue)) (k : String)
    (h : ps.filter (fun q => q.1 == k) ≠ []) :
    List.lookup k (groupPairs ps) =
      some (.arr ((ps.filter (fun q => q.1 == k)).map Prod.snd)) := by
  unfold groupPairs
  rw [lookup_map_keys]
  rcases hf : ps.filter (fun q => q.1 == k) with _ | ⟨q, qs⟩
  · exact absurd hf h
  · have hqmem : q ∈ ps.filter (fun q => q.1 == k) := by
      rw [hf]; exact List.mem_cons_self _ _
    rcases List.mem_filter.1 hqmem with ⟨hqs, hqk⟩
    have hk : k ∈ ps.map Prod.fst :=
      List.mem_map.2 ⟨q, hqs, beq_iff_eq.1 hqk⟩
    rw [if_pos ((mem_dedupKeys _ k).2 hk), hf]

theorem jsGet_xmlToJs_none (m : String) (cs : List Xml) (k : String)
    (h : childrenNamed cs k = []) :
    jsGet (xmlToJs (.elem m cs)) k = none := by
  rw [xmlToJs]
  by_cases he : (childVals cs).isEmpty = true
  · rw [if_pos he]
    rfl
  · rw [if_neg he]
    show List.lookup k (groupPairs (childVals cs)) = none
    exact lookup_groupPairs_nil _ k ((childVals_filter_nil_iff cs k).2 h)

theorem jsGet_xmlToJs_some (m : String) (cs : List Xml) (k : String)
    (h : childrenNamed cs k ≠ []) :
    jsGet (xmlToJs (.elem m cs)) k =
      some (.arr ((childrenNamed cs k).map xmlToJs)) := by
  have hfil : (childVals cs).filter (fun q => q.1 == k) ≠ [] :=
    fun hemp => h ((childVals_filter_nil_iff cs k).1 hemp)
  have he : ¬ (childVals cs).isEmpty = true := by
    intro hemp
    apply hfil
    rw [List.isEmpty_iff.1 hemp]
    rfl
  rw [xmlToJs, if_neg he]
  show List.lookup k (groupPairs (childVals cs)) = _
  rw [lookup_groupPairs_ne _ k hfil, childVals_filter_snd]

theorem except_error_bind {α β : Type} (f : α → Except Unit β) :
    ((Except.error () : Except Unit α) >>= f) = Except.error () := rfl

theorem except_ok_bind {α β : Type} (a : α) (f : α → Except Unit β) :
    ((Except.ok a : Except Unit α) >>= f) = f a := rfl

theorem mapM_except_isOk {α β : Type} (f : α → Except Unit β) (l : List α) :
    (l.mapM f).isOk = l.all (fun x => (f x).isOk) := by
  induction l with
  | nil => rfl
  | cons x xs ih =>
    rw [List.mapM_cons, List.all_cons]
    cases hfx : f x with
    | error e =>
      rw [except_error_bind]
      rfl
    | ok y =>
      rw [except_ok_bind]
      cases hys : xs.mapM f with
      | error e2 =>
        rw [except_error_bind, ← ih, hys]
        rfl
      | ok ys =>
        rw [except_ok_bind, ← ih, hys]
        rfl

theorem all_congr_mem {α : Type} (l : List α) (p q : α → Bool)
    (h : ∀ x ∈ l, p x = q x) : l.all p = l.all q := by
  induction l with
  | nil => rfl
  | cons x xs ih =>
    rw [List.all_cons, List.all_cons, h x (List.mem_cons_self _ _),
      ih (fun y hy => h y (List.mem_cons_of_mem x hy))]

theorem chainGet_some (x : JsValue) (k : String) :
    chainGet (some x) k = .ok (jsGet x k) := rfl

theorem chainIdx_some (x : JsValue) (i : Nat) :
    chainIdx (some x) i = .ok (jsIdx x i) := rfl

theorem chainGet_none (k : String) : chainGet none k = .error () := rfl

theorem chainIdx_none (i : Nat) : chainIdx none i = .error () := rfl

theorem jsIdx_arr_zero (x : JsValue) (xs : List JsValue) :
    jsIdx (.arr (x :: xs)) 0 = some x := rfl

theorem asArr_some_arr (vs : List JsValue) : asArr (some (.arr vs)) = .ok vs := rfl

theorem asArr_none : asArr none = .error () := rfl

theorem mem_childrenNamed_elem (cs : List Xml) (n : String) (x : Xml)
    (h : x ∈ childrenNamed cs n) : ∃ ccs, x = .elem n ccs := by
  rcases List.mem_filter.1 h with ⟨_, hp⟩
  cases x with
  | text s => cases hp
  | elem m ccs =>
    have hmn : m = n := by
      simp only [isNamedElem, beq_iff_eq] at hp
      exact hp
    refine ⟨ccs, ?_⟩
    rw [hmn]

/-- Success of the per-file extraction step of parseModelResponse. -/
theorem fileStep_isOk (m : String) (ccs : List Xml) :
    ((do
      let p ← chainIdx (jsGet (xmlToJs (.elem m ccs)) "path") 0
      let c ← chainIdx (jsGet (xmlToJs (.elem m ccs)) "content") 0
      Except.ok (⟨p, c⟩ : FileContent)) : Except Unit FileContent).isOk =
      (hasNamedChild (.elem m ccs) "path" && hasNamedChild (.elem m ccs) "content") := by
  by_cases hp : childrenNamed ccs "path" = []
  · rw [jsGet_xmlToJs_none _ _ _ hp, chainIdx_none, except_error_bind]
    show false = (!(childrenNamed ccs "path").isEmpty && !(childrenNamed ccs "content").isEmpty)
    rw [hp]
    rfl
  · rcases hp2 : childrenNamed ccs "path" with _ | ⟨p0, ps⟩
    · exact absurd hp2 hp
    · rw [jsGet_xmlToJs_some _ _ _ hp, hp2, List.map_cons, chainIdx_some,
        jsIdx_arr_zero, except_ok_bind]
      by_cases hc : childrenNamed ccs "content" = []
      · rw [jsGet_xmlToJs_none _ _ _ hc, chainIdx_none, except_error_bind]
        show false = (!(childrenNamed ccs "path").isEmpty && !(childrenNamed ccs "content").isEmpty)
        rw [hp2, hc]
        rfl
      · rcases hc2 : childrenNamed ccs "content" with _ | ⟨c0, cls⟩
        · exact absurd hc2 hc
        · rw [jsGet_xmlToJs_some _ _ _ hc, hc2, List.map_cons, chainIdx_some,
            jsIdx_arr_zero, except_ok_bind]
          show true = (!(childrenNamed ccs "path").isEmpty && !(childrenNamed ccs "content").isEmpty)
          rw [hp2, hc2]
          rfl

theorem all_map_isOk {α β : Type} (l : List α) (f : α → β) (p : β → Bool) :
    (l.map f).all p = l.all (fun x => p (f x)) := by
  induction l with
  | nil => rfl
  | cons x xs ih => rw [List.map_cons, List.all_cons, List.all_cons, ih]

/-- C4 amended: over every parsed document, parseModelResponse succeeds
exactly when the required access paths exist (respSchemaOk): the root is a
response element, its first files child has at least one file child, every
file child has a path child and a content child, and its first pullRequest
child has a title child and a body child.  Missing required structure
fails; extra structure is ignored, not rejected. -/
theorem c4_amended (name : String) (cs : List Xml) :
    (parseModelResponse (rootJs name cs)).isOk = respSchemaOk name cs := by
  have hroot : jsGet (rootJs name cs) "response" =
      if name = "response" then some (xmlToJs (.elem name cs)) else none := by
    show List.lookup "response" [(name, xmlToJs (.elem name cs))] = _
    rw [List.lookup_cons]
    by_cases h : name = "response"
    · subst h
      simp
    · have hb : ("response" == name) = false := beq_eq_false_iff_ne.2 (fun e => h e.symm)
      rw [hb, if_neg h]
      rfl
  by_cases hname : name = "response"
  · subst hname
    rw [if_pos rfl] at hroot
    simp only [parseModelResponse]
    rw [hroot, chainGet_some, except_ok_bind]
    by_cases hfl : childrenNamed cs "files" = []
    · rw [jsGet_xmlToJs_none _ _ _ hfl, chainIdx_none, except_error_bind]
      show false = _
      simp [respSchemaOk, hfl]
    · rcases hfl2 : childrenNamed cs "files" with _ | ⟨f0, l2⟩
      · exact absurd hfl2 hfl
      · rcases mem_childrenNamed_elem cs "files" f0
          (by rw [hfl2]; exact List.mem_cons_self _ _) with ⟨fcs, rfl⟩
        rw [jsGet_xmlToJs_some _ _ _ hfl, hfl2, List.map_cons, chainIdx_some,
          jsIdx_arr_zero, except_ok_bind, chainGet_some, except_ok_bind]
        by_cases hfile : childrenNamed fcs "file" = []
        · rw [jsGet_xmlToJs_none _ _ _ hfile, asArr_none, except_error_bind]
          show false = _
          simp [respSchemaOk, hfl2, hfile]
        · rw [jsGet_xmlToJs_some _ _ _ hfile, asArr_some_arr, except_ok_bind]
          have hfileAll :
              ((childrenNamed fcs "file").map xmlToJs).all (fun fv =>
                ((do
                  let p ← chainIdx (jsGet fv "path") 0
                  let c ← chainIdx (jsGet fv "content") 0
                  Except.ok (⟨p, c⟩ : FileContent)) : Except Unit FileContent).isOk) =
              (childrenNamed fcs "file").all
                (fun fc => hasNamedChild fc "path" && hasNamedChild fc "content") := by
            rw [all_map_isOk]
            apply all_congr_mem
            intro fc hmem
            rcases mem_childrenNamed_elem fcs "file" fc hmem with ⟨ccs, rfl⟩
            exact fileStep_isOk "file" ccs
          cases hM : ((childrenNamed fcs "file").map xmlToJs).mapM (fun fv => do
              let p ← chainIdx (jsGet fv "path") 0
              let c ← chainIdx (jsGet fv "content") 0
              Except.ok (⟨p, c⟩ : FileContent)) with
          | error e =>
            rw [except_error_bind]
            have hAllFalse : (childrenNamed fcs "file").all
                (fun fc => hasNamedChild fc "path" && hasNamedChild fc "content") = false := by
              rw [← hfileAll, ← mapM_except_isOk, hM]
              rfl
            show false = _
            simp [respSchemaOk, hfl2, hAllFalse]
          | ok fs =>
            rw [except_ok_bind, chainGet_some, except_ok_bind]
            have hAllTrue : (childrenNamed fcs "file").all
                (fun fc => hasNamedChild fc "path" && hasNamedChild fc "content") = true := by
              rw [← hfileAll, ← mapM_except_isOk, hM]
              rfl
            by_cases hpr : childrenNamed cs "pullRequest" = []
            · rw [jsGet_xmlToJs_none _ _ _ hpr, chainIdx_none, except_error_bind]
              show false = _
              simp [respSchemaOk, hpr]
            · rcases hpr2 : childrenNamed cs "pullRequest" with _ | ⟨p0, pl⟩
              · exact absurd hpr2 hpr
              · rcases mem_childrenNamed_elem cs "pullRequest" p0
                  (by rw [hpr2]; exact List.mem_cons_self _ _) with ⟨pcs, rfl⟩
                rw [jsGet_xmlToJs_some _ _ _ hpr, hpr2, List.map_cons, chainIdx_some,
                  jsIdx_arr_zero, except_ok_bind, chainGet_some, except_ok_bind]
                by_cases ht : childrenNamed pcs "title" = []
                · rw [jsGet_xmlToJs_none _ _ _ ht, chainIdx_none, except_error_bind]
                  show false = _
                  simp [respSchemaOk, hfl2, hpr2, hasNamedChild, ht]
                · rcases ht2 : childrenNamed pcs "title" with _ | ⟨t0, tl⟩
                  · exact absurd ht2 ht
                  · rw [jsGet_xmlToJs_some _ _ _ ht, ht2, List.map_cons, chainIdx_some,
                      jsIdx_arr_zero, except_ok_bind, chainGet_some, except_ok_bind]
                    by_cases hB : childrenNamed pcs "body" = []
                    · rw [jsGet_xmlToJs_none _ _ _ hB, chainIdx_none, except_error_bind]
                      show false = _
                      simp [respSchemaOk, hfl2, hpr2, hasNamedChild, hB]
                    · rcases hB2 : childrenNamed pcs "body" with _ | ⟨b0, bl⟩
                      · exact absurd hB2 hB
                      · rw [jsGet_xmlToJs_some _ _ _ hB, hB2, List.map_cons, chainIdx_some,
                          jsIdx_arr_zero, except_ok_bind]
                        have hf3 : (childrenNamed fcs "file").isEmpty = false := by
                          rcases hx : childrenNamed fcs "file" with _ | ⟨a, b⟩
                          · exact absurd hx hfile
                          · rfl
                        show true = _
                        simp [respSchemaOk, hfl2, hpr2, hasNamedChild, ht2, hB2, hf3]
                        intro x hx
                        have h3 := hAllTrue
                        rw [List.all_eq_true] at h3
                        have h6 := h3 x hx
                        rw [Bool.and_eq_true] at h6
                        exact h6
  · rw [if_neg hname] at hroot
    have hlhs : parseModelResponse (rootJs name cs) = .error () := by
      simp only [parseModelResponse]
      rw [hroot, chainGet_none, except_error_bind]
    rw [hlhs]
    show false = _
    unfold respSchemaOk
    rw [beq_eq_false_iff_ne.2 hname]
    rfl

/-! C3: round-trip of a serialized response block through the parse stage. -/

structure RFile where
  path : String
  content : String

structure RResp where
  title : String
  body : String
  files : List RFile

/-- The characters of <n>inner</n> followed by rest. -/
def wrapTag (n : String) (inner rest : List Char) : List Char :=
  '<' :: (n.data ++ ('>' :: (inner ++ ('<' :: ('/' :: (n.data ++ ('>' :: rest)))))))

/-- The file elements of the block, serialized, followed by rest. -/
def renderFiles : List RFile → List Char → List Char
  | [], rest => rest
  | f :: fs, rest =>
    wrapTag "file" (wrapTag "path" f.path.data (wrapTag "content" f.content.data []))
      (renderFiles fs rest)

def respInner (r : RResp) : List Char :=
  wrapTag "pullRequest"
    (wrapTag "title" r.title.data (wrapTag "body" r.body.data []))
    (wrapTag "files" (renderFiles r.files []) [])

/-- The serialized response block: exactly the section 6 wire format with
no whitespace between tags. -/
def renderResp (r : RResp) : List Char :=
  wrapTag "response" (respInner r) []

/-- Text children of a leaf element holding the (possibly empty) payload T. -/
def txtNodes (T : List Char) : List Xml :=
  if T = [] then [] else [.text ⟨T⟩]

def fileTree (f : RFile) : Xml :=
  .elem "file" [.elem "path" (txtNodes f.path.data), .elem "content" (txtNodes f.content.data)]

/-- The children of the response element the parser yields for renderResp. -/
def respTree (r : RResp) : List Xml :=
  [.elem "pullRequest"
     [.elem "title" (txtNodes r.title.data), .elem "body" (txtNodes r.body.data)],
   .elem "files" (r.files.map fileTree)]

theorem wrapTag_append (n : String) (i r s : List Char) :
    wrapTag n i r ++ s = wrapTag n i (r ++ s) := by
  simp [wrapTag, List.append_assoc]

theorem renderFiles_append (fs : List RFile) (r s : List Char) :
    renderFiles fs r ++ s = renderFiles fs (r ++ s) := by
  induction fs with
  | nil => rfl
  | cons f fs ih =>
    show wrapTag "file" _ (renderFiles fs r) ++ s = _
    rw [wrapTag_append, ih]
    rfl

theorem withOk_ok {α β : Type} (a : α) (f : α → Except Unit β) :
    withOk (.ok a) f = f a := rfl

theorem takeWhile_stops (p : Char → Bool) (A : List Char) (c : Char) (B : List Char)
    (hA : ∀ a ∈ A, p a = true) (hc : p c = false) :
    ((A ++ c :: B).takeWhile p = A) ∧ ((A ++ c :: B).dropWhile p = c :: B) := by
  induction A with
  | nil =>
    constructor
    · show (c :: B).takeWhile p = []
      rw [List.takeWhile_cons, hc]
      rfl
    · show (c :: B).dropWhile p = c :: B
      rw [List.dropWhile_cons, hc]
      rfl
  | cons a A2 ih =>
    have ha : p a = true := hA a (List.mem_cons_self _ _)
    have hrest := ih (fun x hx => hA x (List.mem_cons_of_mem a hx))
    constructor
    · show (a :: (A2 ++ c :: B)).takeWhile p = a :: A2
      rw [List.takeWhile_cons, ha, hrest.1]
      rfl
    · show (a :: (A2 ++ c :: B)).dropWhile p = c :: B
      rw [List.dropWhile_cons, ha, hrest.2]
      rfl

theorem pNodes_stop (fuel : Nat) (rest : List Char) :
    pNodes (fuel + 1) ('<' :: '/' :: rest) = .ok ([], '<' :: '/' :: rest) := rfl

/-- pNodes on a markup-free payload followed by a closing tag. -/
theorem pNodes_text (T rest : List Char) (fuel : Nat)
    (hT : ∀ c ∈ T, c ≠ '<') :
    pNodes (fuel + 2) (T ++ '<' :: '/' :: rest) = .ok (txtNodes T, '<' :: '/' :: rest) := by
  cases T with
  | nil =>
    show pNodes ((fuel + 1) + 1) ('<' :: '/' :: rest) = _
    rw [pNodes_stop (fuel + 1) rest]
    rfl
  | cons c T2 =>
    have hc : ¬ c = '<' := hT c (List.mem_cons_self _ _)
    have hT2 : ∀ a ∈ (c :: T2), isTextChar a = true := by
      intro a ha
      have := hT a ha
      simp [isTextChar, this]
    have hsw := takeWhile_stops isTextChar (c :: T2) '<' ('/' :: rest) hT2 (by decide)
    have ht1 : (c :: (T2 ++ '<' :: '/' :: rest)).takeWhile isTextChar = c :: T2 := hsw.1
    have ht2 : (c :: (T2 ++ '<' :: '/' :: rest)).dropWhile isTextChar = '<' :: '/' :: rest := hsw.2
    show pNodes ((fuel + 1) + 1) (c :: (T2 ++ '<' :: '/' :: rest)) = _
    simp only [pNodes]
    rw [if_neg hc, ht1, ht2, pNodes_stop fuel rest, withOk_ok]
    simp [txtNodes]

/-- pElem on a wrapped element whose inner region parses to kids. -/
theorem pElem_nested (n : String) (i rest : List Char) (kids : List Xml) (fuel : Nat)
    (hn : ¬ n.data = []) (hN : ∀ c ∈ n.data, isNameChar c = true)
    (hi : pNodes fuel (i ++ ('<' :: ('/' :: (n.data ++ ('>' :: rest))))) =
      .ok (kids, '<' :: ('/' :: (n.data ++ ('>' :: rest))))) :
    pElem (fuel + 1) (wrapTag n i rest) = .ok (.elem n kids, rest) := by
  have hsw := takeWhile_stops isNameChar n.data '>'
    (i ++ ('<' :: ('/' :: (n.data ++ ('>' :: rest))))) hN (by decide)
  show pElem (fuel + 1)
    ('<' :: (n.data ++ ('>' :: (i ++ ('<' :: ('/' :: (n.data ++ ('>' :: rest)))))))) = _
  simp only [pElem, List.head?_cons, List.tail_cons, reduceIte]
  rw [hsw.1, hsw.2, if_neg hn]
  simp only [List.head?_cons, List.tail_cons, reduceIte]
  rw [hi, withOk_ok]
  have htake : ('<' :: ('/' :: (n.data ++ ('>' :: rest)))).take (n.data.length + 3) =
      '<' :: '/' :: (n.data ++ ['>']) := by
    rw [show n.data.length + 3 = ((n.data.length + 1) + 1) + 1 by omega]
    rw [List.take_succ_cons, List.take_succ_cons]
    rw [List.take_append_eq_append_take]
    rw [List.take_of_length_le (by omega : n.data.length ≤ n.data.length + 1)]
    rw [show n.data.length + 1 - n.data.length = 1 by omega]
    rfl
  have hdrop : ('<' :: ('/' :: (n.data ++ ('>' :: rest)))).drop (n.data.length + 3) = rest := by
    rw [show n.data.length + 3 = ((n.data.length + 1) + 1) + 1 by omega]
    rw [List.drop_succ_cons, List.drop_succ_cons]
    rw [List.drop_append_eq_append_drop]
    rw [List.drop_eq_nil_of_le (by omega : n.data.length ≤ n.data.length + 1)]
    rw [show n.data.length + 1 - n.data.length = 1 by omega]
    rfl
  simp only [htake, reduceIte]
  rw [hdrop]

theorem pNodes_elem_step (fuel : Nat) (rest0 r1 r2 : List Char) (x : Xml) (xs : List Xml)
    (h2 : ¬ rest0.head? = some '/')
    (he : pElem fuel ('<' :: rest0) = .ok (x, r1))
    (hn : pNodes fuel r1 = .ok (xs, r2)) :
    pNodes (fuel + 1) ('<' :: rest0) = .ok (x :: xs, r2) := by
  simp only [pNodes, reduceIte]
  rw [if_neg h2, he]
  simp only [withOk_ok]
  rw [hn]
  rfl

theorem wrap_head_ne (n : String) (L : List Char)
    (hn : ¬ n.data = []) (hN : ∀ c ∈ n.data, isNameChar c = true) :
    ¬ (n.data ++ L).head? = some '/' := by
  rcases hx : n.data with _ | ⟨c0, n2⟩
  · exact absurd hx hn
  · have hc := hN c0 (by rw [hx]; exact List.mem_cons_self _ _)
    simp only [isNameChar, Bool.and_eq_true, decide_eq_true_eq] at hc
    show ¬ ((c0 :: n2) ++ L).head? = some '/'
    simp [hc.2]

/-- Parse one wrapped element at the head of a node list and continue. -/
theorem pNodes_wrap_step (n : String) (i rest r2 : List Char) (x : Xml) (xs : List Xml)
    (fuel : Nat)
    (hn : ¬ n.data = []) (hN : ∀ c ∈ n.data, isNameChar c = true)
    (he : pElem fuel (wrapTag n i rest) = .ok (x, rest))
    (hrest : pNodes fuel rest = .ok (xs, r2)) :
    pNodes (fuel + 1) (wrapTag n i rest) = .ok (x :: xs, r2) := by
  show pNodes (fuel + 1)
    ('<' :: (n.data ++ ('>' :: (i ++ ('<' :: ('/' :: (n.data ++ ('>' :: rest)))))))) = _
  exact pNodes_elem_step fuel _ rest r2 x xs (wrap_head_ne n _ hn hN) he hrest

/-- Parse one leaf element <n>T</n>. -/
theorem pElem_leaf (n : String) (T rest : List Char) (fuel : Nat)
    (hn : ¬ n.data = []) (hN : ∀ c ∈ n.data, isNameChar c = true)
    (hT : ∀ c ∈ T, c ≠ '<') :
    pElem (fuel + 3) (wrapTag n T rest) = .ok (.elem n (txtNodes T), rest) := by
  show pElem ((fuel + 2) + 1) _ = _
  exact pElem_nested n T rest (txtNodes T) (fuel + 2) hn hN (pNodes_text T _ fuel hT)

/-- Parse two consecutive leaf elements up to a closing tag. -/
theorem pNodes_two_leaves (n1 n2 : String) (T1 T2 tail : List Char) (fuel : Nat)
    (h1 : ¬ n1.data = []) (hN1 : ∀ c ∈ n1.data, isNameChar c = true)
    (h2 : ¬ n2.data = []) (hN2 : ∀ c ∈ n2.data, isNameChar c = true)
    (hT1 : ∀ c ∈ T1, c ≠ '<') (hT2 : ∀ c ∈ T2, c ≠ '<') :
    pNodes (fuel + 5) (wrapTag n1 T1 (wrapTag n2 T2 ('<' :: '/' :: tail))) =
      .ok ([.elem n1 (txtNodes T1), .elem n2 (txtNodes T2)], '<' :: '/' :: tail) := by
  show pNodes ((fuel + 4) + 1) _ = _
  refine pNodes_wrap_step n1 T1 _ _ _ _ (fuel + 4) h1 hN1 ?_ ?_
  · show pElem ((fuel + 1) + 3) _ = _
    exact pElem_leaf n1 T1 _ (fuel + 1) h1 hN1 hT1
  · show pNodes ((fuel + 3) + 1) _ = _
    refine pNodes_wrap_step n2 T2 _ _ _ _ (fuel + 3) h2 hN2 ?_ ?_
    · show pElem (fuel + 3) _ = _
      exact pElem_leaf n2 T2 _ fuel h2 hN2 hT2
    · show pNodes ((fuel + 2) + 1) _ = _
      exact pNodes_stop (fuel + 2) tail

/-- Parse an element with exactly two leaf children. -/
theorem pElem_two_leaves (n n1 n2 : String) (T1 T2 rest : List Char) (fuel : Nat)
    (h0 : ¬ n.data = []) (hN0 : ∀ c ∈ n.data, isNameChar c = true)
    (h1 : ¬ n1.data = []) (hN1 : ∀ c ∈ n1.data, isNameChar c = true)
    (h2 : ¬ n2.data = []) (hN2 : ∀ c ∈ n2.data, isNameChar c = true)
    (hT1 : ∀ c ∈ T1, c ≠ '<') (hT2 : ∀ c ∈ T2, c ≠ '<') :
    pElem (fuel + 6) (wrapTag n (wrapTag n1 T1 (wrapTag n2 T2 [])) rest) =
      .ok (.elem n [.elem n1 (txtNodes T1), .elem n2 (txtNodes T2)], rest) := by
  show pElem ((fuel + 5) + 1) _ = _
  apply pElem_nested n _ rest _ (fuel + 5) h0 hN0
  rw [wrapTag_append, wrapTag_append, List.nil_append]
  exact pNodes_two_leaves n1 n2 T1 T2 _ fuel h1 hN1 h2 hN2 hT1 hT2

/-- A markup-free file record. -/
def cleanFile (f : RFile) : Prop :=
  (∀ c ∈ f.path.data, c ≠ '<') ∧ (∀ c ∈ f.content.data, c ≠ '<')

/-- Parse one file element. -/
theorem pElem_file (f : RFile) (rest : List Char) (fuel : Nat) (hf : cleanFile f) :
    pElem (fuel + 6)
      (wrapTag "file" (wrapTag "path" f.path.data (wrapTag "content" f.content.data [])) rest) =
      .ok (fileTree f, rest) :=
  pElem_two_leaves "file" "path" "content" f.path.data f.content.data rest fuel
    (by decide) (by decide) (by decide) (by decide) (by decide) (by decide) hf.1 hf.2

/-- Parse the list of file elements up to the closing files tag. -/
theorem pNodes_files (fs : List RFile) (tail : List Char) :
    ∀ fuel : Nat, (∀ f ∈ fs, cleanFile f) →
      pNodes (fuel + fs.length + 7) (renderFiles fs ('<' :: '/' :: tail)) =
        .ok (fs.map fileTree, '<' :: '/' :: tail) := by
  induction fs with
  | nil =>
    intro fuel _
    show pNodes ((fuel + 6) + 1) ('<' :: '/' :: tail) = _
    exact pNodes_stop (fuel + 6) tail
  | cons f fs2 ih =>
    intro fuel hclean
    have hstep : fuel + (f :: fs2).length + 7 = (fuel + fs2.length + 7) + 1 := by
      simp [List.length_cons]
      omega
    rw [hstep]
    show pNodes ((fuel + fs2.length + 7) + 1)
      (wrapTag "file" (wrapTag "path" f.path.data (wrapTag "content" f.content.data []))
        (renderFiles fs2 ('<' :: '/' :: tail))) = _
    refine pNodes_wrap_step "file" _ _ _ _ _ _ (by decide) (by decide) ?_ ?_
    · show pElem ((fuel + fs2.length + 1) + 6) _ = _
      exact pElem_file f _ (fuel + fs2.length + 1) (hclean f (List.mem_cons_self _ _))
    · exact ih fuel (fun g hg => hclean g (List.mem_cons_of_mem f hg))

/-- Parse the files element. -/
theorem pElem_files (fs : List RFile) (rest : List Char) (fuel : Nat)
    (hclean : ∀ f ∈ fs, cleanFile f) :
    pElem (fuel + fs.length + 8) (wrapTag "files" (renderFiles fs []) rest) =
      .ok (.elem "files" (fs.map fileTree), rest) := by
  show pElem ((fuel + fs.length + 7) + 1) _ = _
  apply pElem_nested "files" _ rest _ (fuel + fs.length + 7) (by decide) (by decide)
  rw [renderFiles_append, List.nil_append]
  exact pNodes_files fs _ fuel hclean

/-- A markup-free response record. -/
def cleanResp (r : RResp) : Prop :=
  (∀ c ∈ r.title.data, c ≠ '<') ∧ (∀ c ∈ r.body.data, c ≠ '<') ∧ (∀ f ∈ r.files, cleanFile f)

/-- Parse the whole serialized response element. -/
theorem pElem_render (r : RResp) (fuel : Nat) (hr : cleanResp r) :
    pElem (fuel + r.files.length + 11) (renderResp r) =
      .ok (.elem "response" (respTree r), []) := by
  show pElem ((fuel + r.files.length + 10) + 1) (wrapTag "response" (respInner r) []) = _
  apply pElem_nested "response" _ [] _ (fuel + r.files.length + 10) (by decide) (by decide)
  show pNodes (fuel + r.files.length + 10) (respInner r ++ _) = _
  unfold respInner
  rw [wrapTag_append, wrapTag_append, List.nil_append]
  show pNodes ((fuel + r.files.length + 9) + 1) _ = _
  refine pNodes_wrap_step "pullRequest" _ _ _ _ _ _ (by decide) (by decide) ?_ ?_
  · show pElem ((fuel + r.files.length + 3) + 6) _ = _
    exact pElem_two_leaves "pullRequest" "title" "body" r.title.data r.body.data _
      (fuel + r.files.length + 3) (by decide) (by decide) (by decide) (by decide)
      (by decide) (by decide) hr.1 hr.2.1
  · show pNodes ((fuel + r.files.length + 8) + 1) _ = _
    refine pNodes_wrap_step "files" _ _ _ _ _ _ (by decide) (by decide) ?_ ?_
    · show pElem ((fuel) + r.files.length + 8) _ = _
      exact pElem_files r.files _ fuel hr.2.2
    · show pNodes ((fuel + r.files.length + 7) + 1) _ = _
      exact pNodes_stop (fuel + r.files.length + 7) _

theorem wrapTag_length (n : String) (i rest : List Char) :
    (wrapTag n i rest).length = 2 * n.data.length + i.length + rest.length + 5 := by
  simp [wrapTag]
  omega

theorem renderFiles_length (fs : List RFile) (tail : List Char) :
    tail.length + fs.length ≤ (renderFiles fs tail).length := by
  induction fs with
  | nil => simp [renderFiles]
  | cons f fs2 ih =>
    show _ ≤ (wrapTag "file" _ (renderFiles fs2 tail)).length
    rw [wrapTag_length]
    simp [List.length_cons]
    omega

theorem renderResp_length (r : RResp) :
    r.files.length + 21 ≤ (renderResp r).length := by
  have hf := renderFiles_length r.files []
  simp only [List.length_nil] at hf
  simp only [renderResp, respInner, wrapTag_length, List.length_nil]
  omega

/-- parseStringPromise on a serialized response block yields the document. -/
theorem parseSP_render (r : RResp) (hr : cleanResp r) :
    parseSP (renderResp r) = .ok (rootJs "response" (respTree r)) := by
  unfold parseSP
  have hb := renderResp_length r
  obtain ⟨k, hk⟩ : ∃ k, (renderResp r).length + 1 = k + r.files.length + 11 :=
    ⟨(renderResp r).length + 1 - r.files.length - 11, by omega⟩
  rw [hk, pElem_render r k hr]

theorem string_append_empty (s : String) : s ++ "" = s := by
  cases s with
  | mk data => exact congrArg String.mk (List.append_nil data)

/-- xml2js value of a leaf element holding payload T. -/
theorem leafJs (n : String) (T : List Char) :
    xmlToJs (.elem n (txtNodes T)) = .str ⟨T⟩ := by
  by_cases hT : T = []
  · subst hT
    rfl
  · rw [txtNodes, if_neg hT]
    simp [xmlToJs, childVals, textConcat, string_append_empty]

/-- The JS value of one parsed file element. -/
def fileJs (f : RFile) : JsValue :=
  .obj [("path", .arr [.str f.path]), ("content", .arr [.str f.content])]

theorem fileTree_js (f : RFile) : xmlToJs (fileTree f) = fileJs f := by
  have h1 : xmlToJs (.elem "path" (txtNodes f.path.data)) = .str f.path := leafJs _ _
  have h2 : xmlToJs (.elem "content" (txtNodes f.content.data)) = .str f.content := leafJs _ _
  have hcv : childVals [Xml.elem "path" (txtNodes f.path.data),
      Xml.elem "content" (txtNodes f.content.data)] =
      [("path", .str f.path), ("content", .str f.content)] := by
    simp only [childVals]
    rw [h1, h2]
  show xmlToJs (.elem "file" _) = _
  rw [xmlToJs, hcv]
  rfl

/-- The JS value of the parsed pullRequest element. -/
def prJs (r : RResp) : JsValue :=
  .obj [("title", .arr [.str r.title]), ("body", .arr [.str r.body])]

theorem prTree_js (r : RResp) :
    xmlToJs (.elem "pullRequest"
      [.elem "title" (txtNodes r.title.data), .elem "body" (txtNodes r.body.data)]) =
      prJs r := by
  have hcv : childVals [Xml.elem "title" (txtNodes r.title.data),
      Xml.elem "body" (txtNodes r.body.data)] =
      [("title", .str r.title), ("body", .str r.body)] := by
    simp only [childVals]
    rw [leafJs, leafJs]
  rw [xmlToJs, hcv]
  rfl

theorem childVals_map_fileTree (fs : List RFile) :
    childVals (fs.map fileTree) = fs.map (fun f => ("file", fileJs f)) := by
  induction fs with
  | nil => rfl
  | cons f fs2 ih =>
    rw [List.map_cons, List.map_cons]
    show childVals (Xml.elem "file" _ :: _) = _
    rw [childVals, ih]
    have hft : xmlToJs (Xml.elem "file" [Xml.elem "path" (txtNodes f.path.data),
        Xml.elem "content" (txtNodes f.content.data)]) = fileJs f := fileTree_js f
    rw [hft]

theorem dedupKeys_const (l : List String) (k : String)
    (hall : ∀ x ∈ l, x = k) (hne : l ≠ []) : dedupKeys l = [k] := by
  induction l with
  | nil => exact absurd rfl hne
  | cons x xs ih =>
    have hx : x = k := hall x (List.mem_cons_self _ _)
    subst hx
    rw [dedupKeys]
    have hfil : (dedupKeys xs).filter (fun y => y ≠ x) = [] := by
      apply List.filter_eq_nil_iff.2
      intro y hy
      have : y = x := hall y (List.mem_cons_of_mem x ((mem_dedupKeys xs y).1 hy))
      simp [this]
    rw [hfil]

theorem groupPairs_const (vs : List JsValue) (k : String) (hne : vs ≠ []) :
    groupPairs (vs.map (fun v => (k, v))) = [(k, .arr vs)] := by
  unfold groupPairs
  have hkeys : dedupKeys ((vs.map (fun v => (k, v))).map Prod.fst) = [k] := by
    apply dedupKeys_const
    · intro x hx
      rcases List.mem_map.1 hx with ⟨q, hq, hq1⟩
      rcases List.mem_map.1 hq with ⟨v, _, hv⟩
      rw [← hq1, ← hv]
    · intro hemp
      rcases vs with _ | ⟨v, vs2⟩
      · exact hne rfl
      · cases hemp
  rw [hkeys]
  rw [List.map_singleton]
  have hfil : (vs.map (fun v => (k, v))).filter (fun q => q.1 == k) = vs.map (fun v => (k, v)) := by
    apply List.filter_eq_self.2
    intro q hq
    rcases List.mem_map.1 hq with ⟨v, _, hv⟩
    rw [← hv]
    exact beq_self_eq_true k
  rw [hfil, List.map_map]
  simp [Function.comp]

/-- The JS value of the parsed files element, for at least one file. -/
theorem filesTree_js (fs : List RFile) (hne : fs ≠ []) :
    xmlToJs (.elem "files" (fs.map fileTree)) =
      .obj [("file", .arr (fs.map fileJs))] := by
  have hcv : childVals (fs.map fileTree) = (fs.map fileJs).map (fun v => ("file", v)) := by
    rw [childVals_map_fileTree, List.map_map]
    rfl
  have hnem : ¬ (childVals (fs.map fileTree)).isEmpty = true := by
    rw [hcv]
    rcases fs with _ | ⟨f, fs2⟩
    · exact absurd rfl hne
    · intro h
      cases List.isEmpty_iff.1 h
  rw [xmlToJs, if_neg hnem, hcv, groupPairs_const _ _ (by
    intro h
    rcases fs with _ | ⟨f, fs2⟩
    · exact hne rfl
    · cases h)]

/-- Per-file extraction inside the mapM of parseModelResponse. -/
theorem mapM_filesJs (fs : List RFile) :
    (fs.map fileJs).mapM (fun fv => do
        let p ← chainIdx (jsGet fv "path") 0
        let c ← chainIdx (jsGet fv "content") 0
        Except.ok (⟨p, c⟩ : FileContent)) =
      .ok (fs.map (fun f => (⟨some (.str f.path), some (.str f.content)⟩ : FileContent))) := by
  induction fs with
  | nil => rfl
  | cons f fs2 ih =>
    rw [List.map_cons, List.map_cons, List.mapM_cons]
    have hstep : (do
        let p ← chainIdx (jsGet (fileJs f) "path") 0
        let c ← chainIdx (jsGet (fileJs f) "content") 0
        Except.ok (⟨p, c⟩ : FileContent)) =
        Except.ok (⟨some (.str f.path), some (.str f.content)⟩ : FileContent) := rfl
    rw [hstep, except_ok_bind, ih, except_ok_bind]
    rfl

/-- parseModelResponse on the document parsed from renderResp, for K ≥ 1. -/
theorem parseModelResponse_render (r : RResp) (hne : r.files ≠ []) :
    parseModelResponse (rootJs "response" (respTree r)) =
      .ok ⟨r.files.map (fun f => ⟨some (.str f.path), some (.str f.content)⟩),
           ⟨some (.str r.title), some (.str r.body)⟩⟩ := by
  have hV : xmlToJs (.elem "response" (respTree r)) =
      .obj [("pullRequest", .arr [prJs r]), ("files", .arr [.obj [("file", .arr (r.files.map fileJs))]])] := by
    have hcv : childVals (respTree r) =
        [("pullRequest", prJs r), ("files", .obj [("file", .arr (r.files.map fileJs))])] := by
      show childVals (Xml.elem "pullRequest" _ :: Xml.elem "files" _ :: []) = _
      rw [childVals, childVals, prTree_js, filesTree_js r.files hne]
      rfl
    rw [xmlToJs, hcv]
    rfl
  have hroot : jsGet (rootJs "response" (respTree r)) "response" =
      some (xmlToJs (.elem "response" (respTree r))) := rfl
  simp only [parseModelResponse]
  rw [hroot, hV, chainGet_some]
  rw [show jsGet (JsValue.obj [("pullRequest", .arr [prJs r]),
      ("files", .arr [.obj [("file", .arr (r.files.map fileJs))]])]) "files" =
    some (.arr [.obj [("file", .arr (r.files.map fileJs))]]) from rfl]
  rw [except_ok_bind, chainIdx_some, jsIdx_arr_zero, except_ok_bind, chainGet_some]
  rw [show jsGet (JsValue.obj [("file", .arr (r.files.map fileJs))]) "file" =
    some (.arr (r.files.map fileJs)) from rfl]
  rw [except_ok_bind, asArr_some_arr, except_ok_bind, mapM_filesJs, except_ok_bind]
  rw [chainGet_some]
  rw [show jsGet (JsValue.obj [("pullRequest", .arr [prJs r]),
      ("files", .arr [.obj [("file", .arr (r.files.map fileJs))]])]) "pullRequest" =
    some (.arr [prJs r]) from rfl]
  rw [except_ok_bind, chainIdx_some, jsIdx_arr_zero, except_ok_bind, chainGet_some]
  rw [show jsGet (prJs r) "title" = some (.arr [.str r.title]) from rfl]
  rw [except_ok_bind, chainIdx_some, jsIdx_arr_zero, except_ok_bind, chainGet_some]
  rw [show jsGet (prJs r) "body" = some (.arr [.str r.body]) from rfl]
  rw [except_ok_bind, chainIdx_some, jsIdx_arr_zero, except_ok_bind]

/-! Occurrence analysis of the two delimiters inside p ++ renderResp r ++ s:
    the opening tag first occurs exactly where the rendered block starts and
    the closing tag first occurs exactly at the rendered closing delimiter,
    provided the prefix p contains neither delimiter and the payloads are
    markup-free. -/

theorem occursAt_nth (pat s : List Char) (j m : Nat) (hocc : occursAt pat s j)
    (hm : m < pat.length) : s[j + m]? = pat[m]? := by
  unfold occursAt at hocc
  have h1 : ((s.drop j).take pat.length)[m]? = pat[m]? := by rw [hocc]
  rw [List.getElem?_take] at h1
  rw [if_pos hm] at h1
  rw [List.getElem?_drop] at h1
  exact h1

theorem occursAt_of_append (pat p B : List Char) (j : Nat)
    (hj : j + pat.length ≤ p.length) (hocc : occursAt pat (p ++ B) j) :
    occursAt pat p j := by
  unfold occursAt at hocc ⊢
  rw [List.drop_append_eq_append_drop] at hocc
  rw [List.take_append_eq_append_take] at hocc
  have h1 : pat.length - (p.drop j).length = 0 := by
    rw [List.length_drop]
    omega
  rw [h1, List.take_zero, List.append_nil] at hocc
  exact hocc

theorem occursAt_shift (pat p B : List Char) (j : Nat) (hj : p.length ≤ j) :
    occursAt pat (p ++ B) j ↔ occursAt pat B (j - p.length) := by
  unfold occursAt
  rw [List.drop_append_eq_append_drop]
  rw [List.drop_eq_nil_of_le hj, List.nil_append]

/-- A delimiter whose only angle bracket is its first character cannot
straddle the boundary between p and B when B starts with an angle bracket. -/
theorem no_straddle (pat p B : List Char) (j : Nat)
    (h1 : j < p.length) (h2 : p.length < j + pat.length)
    (hB : B[0]? = some '<')
    (hpat : ∀ m, m < pat.length → 0 < m → ¬ pat[m]? = some '<')
    (hocc : occursAt pat (p ++ B) j) : False := by
  have hm := occursAt_nth pat (p ++ B) j (p.length - j) hocc (by omega)
  rw [show j + (p.length - j) = p.length from by omega] at hm
  rw [List.getElem?_append_right (le_refl p.length)] at hm
  rw [Nat.sub_self] at hm
  rw [hB] at hm
  exact hpat (p.length - j) (by omega) (by omega) hm.symm

/-- No occurrence of the closing delimiter starts inside A, whatever
follows A. -/
def noCloseIn (A : List Char) : Prop :=
  ∀ (B : List Char) (k : Nat), k < A.length → ¬ occursAt closeTag (A ++ B) k

theorem noCloseIn_nil : noCloseIn [] := by
  intro B k hk
  simp at hk

theorem noCloseIn_append (A1 A2 : List Char) (h1 : noCloseIn A1) (h2 : noCloseIn A2) :
    noCloseIn (A1 ++ A2) := by
  intro B k hk hocc
  rw [List.append_assoc] at hocc
  by_cases hcase : k < A1.length
  · exact h1 (A2 ++ B) k hcase hocc
  · have hk2 : k - A1.length < A2.length := by
      rw [List.length_append] at hk
      omega
    exact h2 B (k - A1.length) hk2
      ((occursAt_shift closeTag A1 (A2 ++ B) k (by omega)).1 hocc)

/-- A bracket-free chunk contains no start of the closing delimiter. -/
theorem clean_noClose (A : List Char) (hA : ∀ c ∈ A, c ≠ '<') : noCloseIn A := by
  intro B k hk hocc
  have hm := occursAt_nth closeTag (A ++ B) k 0 hocc (by decide)
  rw [Nat.add_zero] at hm
  rw [List.getElem?_append] at hm
  rw [if_pos hk] at hm
  have hlt : A[k]? = some '<' := by rw [hm]; rfl
  rcases List.getElem?_eq_some.1 hlt with ⟨hkl, hgy⟩
  exact hA '<' (hgy ▸ List.getElem_mem hkl) rfl

/-- A concrete chunk each of whose positions mismatches the closing
delimiter somewhere strictly inside the chunk starts no occurrence of it. -/
theorem chunk_noClose (A : List Char)
    (hA : ∀ k, k < A.length → ∃ m, m < closeTag.length ∧ k + m < A.length ∧
      ¬ A[k + m]? = closeTag[m]?) : noCloseIn A := by
  intro B k hk hocc
  rcases hA k hk with ⟨m, hm1, hm2, hm3⟩
  have hm := occursAt_nth closeTag (A ++ B) k m hocc hm1
  rw [List.getElem?_append] at hm
  rw [if_pos hm2] at hm
  exact hm3 hm

/-- The characters of an opening tag. -/
def openPiece (n : String) : List Char := '<' :: (n.data ++ ['>'])

/-- The characters of a closing tag. -/
def closePiece (n : String) : List Char := '<' :: '/' :: (n.data ++ ['>'])

theorem wrapTag_eq (n : String) (i rest : List Char) :
    wrapTag n i rest = openPiece n ++ (i ++ (closePiece n ++ rest)) := by
  simp [wrapTag, openPiece, closePiece, List.append_assoc]

theorem noCloseIn_wrapTag (n : String) (i rest : List Char)
    (hn : noCloseIn (openPiece n)) (hc : noCloseIn (closePiece n))
    (hi : noCloseIn i) (hrest : noCloseIn rest) : noCloseIn (wrapTag n i rest) := by
  rw [wrapTag_eq]
  exact noCloseIn_append _ _ hn (noCloseIn_append _ _ hi (noCloseIn_append _ _ hc hrest))

theorem noCloseIn_renderFiles (fs : List RFile) (rest : List Char) (hrest : noCloseIn rest) :
    (∀ f ∈ fs, cleanFile f) → noCloseIn (renderFiles fs rest) := by
  induction fs with
  | nil => exact fun _ => hrest
  | cons f fs2 ih =>
    intro hclean
    have hf := hclean f (List.mem_cons_self _ _)
    show noCloseIn (wrapTag "file" _ _)
    refine noCloseIn_wrapTag _ _ _ (chunk_noClose _ (by decide)) (chunk_noClose _ (by decide))
      ?_ ?_
    · exact noCloseIn_wrapTag _ _ _ (chunk_noClose _ (by decide)) (chunk_noClose _ (by decide))
        (clean_noClose _ hf.1)
        (noCloseIn_wrapTag _ _ _ (chunk_noClose _ (by decide)) (chunk_noClose _ (by decide))
          (clean_noClose _ hf.2) noCloseIn_nil)
    · exact ih (fun g hg => hclean g (List.mem_cons_of_mem f hg))

theorem noCloseIn_respInner (r : RResp) (hr : cleanResp r) : noCloseIn (respInner r) := by
  unfold respInner
  refine noCloseIn_wrapTag _ _ _ (chunk_noClose _ (by decide)) (chunk_noClose _ (by decide))
    ?_ ?_
  · exact noCloseIn_wrapTag _ _ _ (chunk_noClose _ (by decide)) (chunk_noClose _ (by decide))
      (clean_noClose _ hr.1)
      (noCloseIn_wrapTag _ _ _ (chunk_noClose _ (by decide)) (chunk_noClose _ (by decide))
        (clean_noClose _ hr.2.1) noCloseIn_nil)
  · exact noCloseIn_wrapTag _ _ _ (chunk_noClose _ (by decide)) (chunk_noClose _ (by decide))
      (noCloseIn_renderFiles r.files [] noCloseIn_nil hr.2.2) noCloseIn_nil

theorem renderResp_decomp (r : RResp) :
    renderResp r = openTag ++ (respInner r ++ closeTag) := by
  rw [show openTag = '<' :: ("response".data ++ ['>']) from rfl,
      show closeTag = '<' :: '/' :: ("response".data ++ ['>']) from rfl]
  simp [renderResp, wrapTag, List.append_assoc]

theorem renderResp_len (r : RResp) :
    (renderResp r).length = (respInner r).length + 21 := by
  rw [renderResp_decomp]
  simp [List.length_append, openTag_length, closeTag_length]
  omega

theorem head_lt_append (X B : List Char) (hX : X[0]? = some '<') :
    (X ++ B)[0]? = some '<' := by
  rcases List.getElem?_eq_some.1 hX with ⟨hlen, _⟩
  rw [List.getElem?_append]
  rw [if_pos hlen]
  exact hX

theorem renderResp_head (r : RResp) : (renderResp r)[0]? = some '<' := rfl

theorem jsIndexOf_some (s pat : List Char) (i : Nat) (h : firstIdx pat s = some i) :
    jsIndexOf s pat = (i : Int) := by
  unfold jsIndexOf
  rw [h]

theorem jsIndexOf_none (s pat : List Char) (h : firstIdx pat s = none) :
    jsIndexOf s pat = -1 := by
  unfold jsIndexOf
  rw [h]

/-- extractXMLFromResponse when both delimiters are found. -/
theorem extract_eval (text : List Char) (i k : Nat)
    (ho : firstIdx openTag text = some i) (hc : firstIdx closeTag text = some k) :
    extractXMLFromResponse text = .ok ((text.drop i).take (k + 11 - i)) := by
  show (if jsIndexOf text openTag = -1 ∨ jsIndexOf text closeTag + (closeTag.length : Int) = -1
      then (Except.error () : Except Unit (List Char))
      else Except.ok ((text.drop (jsIndexOf text openTag).toNat).take
        (jsIndexOf text closeTag + (closeTag.length : Int) - jsIndexOf text openTag).toNat)) =
    Except.ok ((text.drop i).take (k + 11 - i))
  rw [jsIndexOf_some text openTag i ho, jsIndexOf_some text closeTag k hc, closeTag_length]
  rw [if_neg (by omega)]
  have e1 : ((i : Int)).toNat = i := rfl
  have e2 : (((k : Nat) : Int) + ((11 : Nat) : Int) - ((i : Nat) : Int)).toNat = k + 11 - i := by
    omega
  rw [e1, e2]

/-- extractXMLFromResponse when only the opening delimiter is found: the
JS bug makes xmlEnd equal 10, so the function returns a slice instead of
throwing. -/
theorem extract_eval_noclose (text : List Char) (i : Nat)
    (ho : firstIdx openTag text = some i) (hc : firstIdx closeTag text = none) :
    extractXMLFromResponse text = .ok ((text.drop i).take (((10 : Int) - (i : Int)).toNat)) := by
  show (if jsIndexOf text openTag = -1 ∨ jsIndexOf text closeTag + (closeTag.length : Int) = -1
      then (Except.error () : Except Unit (List Char))
      else Except.ok ((text.drop (jsIndexOf text openTag).toNat).take
        (jsIndexOf text closeTag + (closeTag.length : Int) - jsIndexOf text openTag).toNat)) =
    Except.ok ((text.drop i).take (((10 : Int) - (i : Int)).toNat))
  rw [jsIndexOf_some text openTag i ho, jsIndexOf_none text closeTag hc, closeTag_length]
  rw [if_neg (by omega)]
  have e1 : ((i : Int)).toNat = i := rfl
  have e2 : ((-1 : Int) + ((11 : Nat) : Int) - ((i : Nat) : Int)).toNat =
      (((10 : Int) - ((i : Nat) : Int)).toNat) := by
    omega
  rw [e1, e2]

theorem firstIdx_open_render (p s : List Char) (r : RResp)
    (hp1 : ∀ j, ¬ occursAt openTag p j) :
    firstIdx openTag (p ++ (renderResp r ++ s)) = some p.length := by
  rw [firstIdx_eq_some_iff]
  constructor
  · rw [occursAt_shift openTag p (renderResp r ++ s) p.length (le_refl _)]
    rw [Nat.sub_self]
    rw [occursAt_zero]
    rw [renderResp_decomp, List.append_assoc]
    exact List.take_left _ _
  · intro j hj hocc
    by_cases hcase : j + openTag.length ≤ p.length
    · exact hp1 j (occursAt_of_append openTag p (renderResp r ++ s) j hcase hocc)
    · exact no_straddle openTag p (renderResp r ++ s) j hj (by omega)
        (head_lt_append _ s (renderResp_head r)) (by decide) hocc

theorem firstIdx_close_render (p s : List Char) (r : RResp)
    (hp2 : ∀ j, ¬ occursAt closeTag p j) (hr : cleanResp r) :
    firstIdx closeTag (p ++ (renderResp r ++ s)) =
      some (p.length + (10 + (respInner r).length)) := by
  have hA : noCloseIn (openTag ++ respInner r) :=
    noCloseIn_append _ _ (chunk_noClose _ (by decide)) (noCloseIn_respInner r hr)
  have hAlen : (openTag ++ respInner r).length = 10 + (respInner r).length := by
    rw [List.length_append, openTag_length]
  have hsplit : renderResp r ++ s = (openTag ++ respInner r) ++ (closeTag ++ s) := by
    rw [renderResp_decomp]
    simp [List.append_assoc]
  rw [firstIdx_eq_some_iff]
  constructor
  · rw [hsplit]
    rw [occursAt_shift closeTag p _ _ (by omega)]
    rw [show p.length + (10 + (respInner r).length) - p.length =
        (openTag ++ respInner r).length from by rw [hAlen]; omega]
    rw [occursAt_shift closeTag (openTag ++ respInner r) _ _ (le_refl _)]
    rw [Nat.sub_self, occursAt_zero]
    exact List.take_left _ _
  · intro j hj hocc
    rw [hsplit] at hocc
    by_cases h1 : j + closeTag.length ≤ p.length
    · exact hp2 j (occursAt_of_append closeTag p _ j h1 hocc)
    · by_cases h2 : j < p.length
      · exact no_straddle closeTag p _ j h2 (by omega)
          (head_lt_append _ _ (head_lt_append openTag (respInner r) rfl)) (by decide) hocc
      · have hocc2 := (occursAt_shift closeTag p _ j (by omega)).1 hocc
        exact hA (closeTag ++ s) (j - p.length) (by omega) hocc2

/-- The extraction step on surrounding noise plus a rendered block returns
exactly the rendered block. -/
theorem extract_render (p s : List Char) (r : RResp)
    (hp1 : ∀ j, ¬ occursAt openTag p j) (hp2 : ∀ j, ¬ occursAt closeTag p j)
    (hr : cleanResp r) :
    extractXMLFromResponse (p ++ (renderResp r ++ s)) = .ok (renderResp r) := by
  rw [extract_eval _ p.length (p.length + (10 + (respInner r).length))
    (firstIdx_open_render p s r hp1) (firstIdx_close_render p s r hp2 hr)]
  rw [show p.length + (10 + (respInner r).length) + 11 - p.length = (renderResp r).length from by
    rw [renderResp_len]; omega]
  rw [List.drop_left]
  rw [List.take_left]

theorem except_unit_eq_error {α : Type} (e : Except Unit α) (h : e.isOk = false) :
    e = .error () := by
  cases e with
  | error u => cases u; rfl
  | ok a => simp [Except.isOk, Except.toBool] at h

/-- Every prefix of the opening tag fails the XML parse. -/
theorem parseSP_openTag_take (m : Nat) (hm : m ≤ 10) :
    parseSP (openTag.take m) = .error () := by
  apply except_unit_eq_error
  interval_cases m <;> rfl

/-- With the opening tag present but the closing tag absent, the slice
returned by the extractor is a prefix of the opening tag, and the XML
parse of that prefix fails, so the parse stage still ends in an error. -/
theorem runParse_no_close (raw : List Char)
    (hoc : ∀ j, ¬ occursAt closeTag raw j) : runParse raw = .error () := by
  have hcl : firstIdx closeTag raw = none := (firstIdx_eq_none_iff closeTag raw).2 hoc
  cases hfo : firstIdx openTag raw with
  | none =>
    have hex : extractXMLFromResponse raw = .error () :=
      extract_error_of_no_openTag raw ((firstIdx_eq_none_iff openTag raw).1 hfo)
    unfold runParse
    rw [hex]
    rfl
  | some i =>
    have hocc : occursAt openTag raw i := ((firstIdx_eq_some_iff openTag raw i).1 hfo).1
    have h10 : (raw.drop i).take 10 = openTag := hocc
    have hk : ((10 : Int) - (i : Int)).toNat ≤ 10 := by omega
    have hslice : (raw.drop i).take (((10 : Int) - (i : Int)).toNat) =
        openTag.take (((10 : Int) - (i : Int)).toNat) := by
      rw [← h10, List.take_take]
      rw [show (((10 : Int) - (i : Int)).toNat) ⊓ 10 = (((10 : Int) - (i : Int)).toNat) from by
        omega]
    unfold runParse
    rw [extract_eval_noclose raw i hfo hcl, except_ok_bind, hslice,
      parseSP_openTag_take _ hk, except_error_bind]

/-- parseModelResponse on the document parsed from renderResp, for K = 0:
xml2js maps the empty files element to the empty string, reading .file on
a string gives undefined, and .map on undefined throws. -/
theorem parseModelResponse_render_nil (r : RResp) (hnil : r.files = []) :
    parseModelResponse (rootJs "response" (respTree r)) = .error () := by
  have hfiles : xmlToJs (.elem "files" (r.files.map fileTree)) = .str "" := by
    rw [hnil]
    rfl
  have hcv : childVals (respTree r) = [("pullRequest", prJs r), ("files", .str "")] := by
    show childVals (Xml.elem "pullRequest" _ :: Xml.elem "files" _ :: []) = _
    rw [childVals, childVals, prTree_js, hfiles]
    rfl
  have hV : xmlToJs (.elem "response" (respTree r)) =
      .obj [("pullRequest", .arr [prJs r]), ("files", .arr [.str ""])] := by
    rw [xmlToJs, hcv]
    rfl
  have hroot : jsGet (rootJs "response" (respTree r)) "response" =
      some (xmlToJs (.elem "response" (respTree r))) := rfl
  simp only [parseModelResponse]
  rw [hroot, hV, chainGet_some]
  rw [show jsGet (JsValue.obj [("pullRequest", .arr [prJs r]), ("files", .arr [.str ""])])
      "files" = some (.arr [.str ""]) from rfl]
  rw [except_ok_bind, chainIdx_some, jsIdx_arr_zero, except_ok_bind, chainGet_some]
  rw [show jsGet (JsValue.str "") "file" = (none : Option JsValue) from rfl]
  rw [except_ok_bind, asArr_none, except_error_bind]

instance (f : RFile) : Decidable (cleanFile f) := by
  unfold cleanFile
  infer_instance

instance (r : RResp) : Decidable (cleanResp r) := by
  unfold cleanResp
  infer_instance

/-- C3 (amended): for raw model output made of arbitrary delimiter-free
noise around a serialized response block with markup-free payloads, (1)
with K at least 1 file elements the parse stage yields exactly the K edits
in document order together with the title and body; (2) with K = 0 the
parse stage throws (xml2js turns the empty files element into a string,
so .file is undefined and .map on it fails) — contradicting the claimed
K = 0 roundtrip; (3) raw output with no opening tag fails the parse
stage; (4) raw output with no closing tag also fails the parse stage
(the extractor mistakenly returns a prefix of the opening tag, which the
XML parse then rejects). -/
theorem c3_amended (p s : List Char) (r : RResp)
    (hp1 : ∀ j, ¬ occursAt openTag p j)
    (hp2 : ∀ j, ¬ occursAt closeTag p j)
    (hr : cleanResp r) :
    (r.files ≠ [] →
      runParse (p ++ (renderResp r ++ s)) =
        .ok ⟨r.files.map (fun f => ⟨some (.str f.path), some (.str f.content)⟩),
             ⟨some (.str r.title), some (.str r.body)⟩⟩) ∧
    (r.files = [] → runParse (p ++ (renderResp r ++ s)) = .error ()) ∧
    (∀ raw : List Char, (∀ j, ¬ occursAt openTag raw j) → runParse raw = .error ()) ∧
    (∀ raw : List Char, (∀ j, ¬ occursAt closeTag raw j) → runParse raw = .error ()) := by
  refine ⟨?_, ?_, ?_, ?_⟩
  · intro hne
    unfold runParse
    rw [extract_render p s r hp1 hp2 hr, except_ok_bind, parseSP_render r hr, except_ok_bind]
    exact parseModelResponse_render r hne
  · intro hnil
    unfold runParse
    rw [extract_render p s r hp1 hp2 hr, except_ok_bind, parseSP_render r hr, except_ok_bind]
    exact parseModelResponse_render_nil r hnil
  · intro raw hro
    unfold runParse
    rw [extract_error_of_no_openTag raw hro]
    rfl
  · intro raw hrc
    exact runParse_no_close raw hrc

/-- Witness for c3_amended on concrete noise, a concrete two-file response
record and a concrete tail. -/
theorem c3_witness :
    runParse ("noise ".data ++
        (renderResp ⟨"T", "B", [⟨"a.ts", "x"⟩, ⟨"b.ts", "y"⟩]⟩ ++ " tail".data)) =
      .ok ⟨[⟨some (.str "a.ts"), some (.str "x")⟩, ⟨some (.str "b.ts"), some (.str "y")⟩],
           ⟨some (.str "T"), some (.str "B")⟩⟩ :=
  (c3_amended "noise ".data " tail".data ⟨"T", "B", [⟨"a.ts", "x"⟩, ⟨"b.ts", "y"⟩]⟩
      ((firstIdx_eq_none_iff openTag "noise ".data).1 rfl)
      ((firstIdx_eq_none_iff closeTag "noise ".data).1 rfl)
      (by decide)).1 (List.cons_ne_nil _ _)

end PRPipe
